import Mathlib

/-!
Verification of the release-packaging pipeline in `build.py`
(incremental artifact publishing and manifest reconciliation).

The script is shallowly embedded: every pure transformation
(`split_file`, `compile_rules`, the per-run logic of `main`) becomes an
executable Lean function over explicit state, and library primitives
whose byte-level output the claims never inspect (SHA-256, zip
deflate, JSON pretty-printing, UTF-8 decoding of the version file) are
abstracted as a deterministic `Prim` record of functions, so all
theorems hold for every implementation of those primitives.
File contents are `List Nat` (bytes); paths are lists of components.
-/

set_option autoImplicit false

namespace SNIBuild

/-- Bytes of a file: a list of naturals, each intended to be `< 256`. -/
abbrev Bytes := List Nat

/-! ## Decimal rendering and part names

`split_file` in the source names parts with Python's `f"{idx:03d}"`:
the decimal digits of `idx`, left-padded with zeros to a minimum width
of three. -/

/-- Decimal digit characters of a natural number (most significant first). -/
def decDigits (n : Nat) : List Char :=
  if h : n < 10 then [Char.ofNat (48 + n)]
  else decDigits (n / 10) ++ [Char.ofNat (48 + n % 10)]
decreasing_by exact Nat.div_lt_self (Nat.lt_of_lt_of_le (by omega) (Nat.le_of_not_lt h)) (by omega)

/-- Decimal string of a natural number. -/
def natStr (n : Nat) : String := String.mk (decDigits n)

/-- Python `f"{n:03d}"`: decimal digits left-padded with zeros to width at least 3. -/
def pad3 (n : Nat) : String :=
  String.mk (List.replicate (3 - (decDigits n).length) '0' ++ decDigits n)

/-- The name of chunk `idx` of a file called `filename` (`build.py` line 42). -/
def partName (filename : String) (idx : Nat) : String :=
  filename ++ ".part" ++ pad3 idx

/-! ## The chunker (`split_file`, `build.py` lines 34-48)

The loop reads `CHUNK_SIZE` bytes at a time and stops on an empty
read; each chunk is written to `<basename>.part<NNN>` and the part
names are returned in order.  We model it as a function from the
source bytes to the list of `(part name, part bytes)` pairs; the
caller (`main`) writes each pair into the target tree. -/

/-- The split loop with explicit chunk size and running index.
`f.read(csize)` returns the next `csize` bytes (fewer at the end,
empty at end-of-file, and empty immediately when `csize = 0`). -/
def splitLoop (csize : Nat) (filename : String) (idx : Nat) (bs : Bytes) :
    List (String × Bytes) :=
  if csize = 0 ∨ bs = [] then []
  else (partName filename idx, bs.take csize) ::
    splitLoop csize filename (idx + 1) (bs.drop csize)
termination_by bs.length
decreasing_by
  rename_i h
  have h1 : csize ≠ 0 := fun hc => h (Or.inl hc)
  have h2 : bs ≠ [] := fun hb => h (Or.inr hb)
  have : 0 < bs.length := List.length_pos.mpr h2
  simp only [List.length_drop]
  omega

/-- `split_file` from the source: chunk the file's bytes, naming parts
from index `000` upwards. -/
def split_file (csize : Nat) (filename : String) (bs : Bytes) :
    List (String × Bytes) :=
  splitLoop csize filename 0 bs

/-- Names produced by `split_file`. -/
def splitNames (csize : Nat) (filename : String) (bs : Bytes) : List String :=
  (split_file csize filename bs).map Prod.fst

/-! ## Python text primitives used by `compile_rules`

`hosts_content = tf.read().strip()` and
`normalized_content = "\r\n".join(hosts_content.splitlines())`
(`build.py` lines 77 and 83).  `str.strip()` removes the characters
for which `str.isspace()` holds from both ends; `str.splitlines()`
splits at the Unicode line boundaries recognised by CPython. -/

/-- The characters Python's `str.isspace()` accepts. -/
def pySpace (c : Char) : Bool :=
  c = ' ' ∨ c = '\t' ∨ c = '\n' ∨ c = '\r' ∨ c = '\x0b' ∨ c = '\x0c' ∨
  c = '\x1c' ∨ c = '\x1d' ∨ c = '\x1e' ∨ c = '\x1f' ∨ c = '\x85' ∨
  c = '\xa0' ∨ c = ' ' ∨ (0x2000 ≤ c.toNat ∧ c.toNat ≤ 0x200a) ∨
  c = ' ' ∨ c = ' ' ∨ c = ' ' ∨ c = ' ' ∨ c = '　'

/-- The line boundaries Python's `str.splitlines()` recognises
(besides the two-character boundary `"\r\n"`, handled separately). -/
def pyLineBoundary (c : Char) : Bool :=
  c = '\n' ∨ c = '\r' ∨ c = '\x0b' ∨ c = '\x0c' ∨ c = '\x1c' ∨
  c = '\x1d' ∨ c = '\x1e' ∨ c = '\x85' ∨ c = ' ' ∨ c = ' '

/-- Python `str.strip()` on a character list. -/
def pyStripChars (l : List Char) : List Char :=
  ((l.dropWhile pySpace).reverse.dropWhile pySpace).reverse

/-- Python `str.strip()`. -/
def pyStrip (s : String) : String := String.mk (pyStripChars s.data)

mutual

/-- Worker for `splitlines`: `acc` holds the current line reversed.
A final line without terminator is emitted only when non-empty. -/
def splitlinesAux : List Char → List Char → List String
  | [], acc => if acc = [] then [] else [String.mk acc.reverse]
  | c :: rest, acc =>
    if pyLineBoundary c then String.mk acc.reverse :: splitlinesCont c rest
    else splitlinesAux rest (c :: acc)
termination_by l _ => 2 * l.length
decreasing_by
  · simp
    omega
  · simp_arith

/-- After the boundary character `c`: a following `'\n'` is consumed
together with a preceding `'\r'` as the single boundary `"\r\n"`. -/
def splitlinesCont (c : Char) : List Char → List String
  | [] => []
  | c2 :: rest =>
    if c = '\r' ∧ c2 = '\n' then splitlinesAux rest []
    else splitlinesAux (c2 :: rest) []
termination_by l => 2 * l.length + 1
decreasing_by
  · simp_arith
  · simp_arith

end

/-- Python `str.splitlines()` (no keepends). -/
def pySplitlines (s : String) : List String := splitlinesAux s.data []

/-- `"\r\n".join(lines)`. -/
def crlfJoin : List String → String
  | [] => ""
  | [s] => s
  | s :: t :: rest => s ++ "\r\n" ++ crlfJoin (t :: rest)

/-! ## UTF-8 encoding (`.encode('utf-8')`) -/

/-- UTF-8 bytes of one scalar value. -/
def utf8Char (c : Char) : Bytes :=
  let n := c.toNat
  if n < 0x80 then [n]
  else if n < 0x800 then [0xc0 + n / 64, 0x80 + n % 64]
  else if n < 0x10000 then
    [0xe0 + n / 4096, 0x80 + (n / 64) % 64, 0x80 + n % 64]
  else
    [0xf0 + n / 262144, 0x80 + (n / 4096) % 64, 0x80 + (n / 64) % 64,
     0x80 + n % 64]

/-- UTF-8 bytes of a string. -/
def utf8Encode (s : String) : Bytes := (s.data.map utf8Char).flatten

/-! ## Base64 (`base64.b64encode(...).decode('utf-8')`)

Standard RFC 4648 base64 with `=` padding, as produced by Python's
`base64.b64encode`.  The decoder is the mathematical inverse used to
state the round-trip claims; the script itself never decodes. -/

/-- The base64 alphabet: the character for a 6-bit value. -/
def b64Char (n : Nat) : Char :=
  if n < 26 then Char.ofNat (65 + n)
  else if n < 52 then Char.ofNat (97 + (n - 26))
  else if n < 62 then Char.ofNat (48 + (n - 52))
  else if n = 62 then '+'
  else '/'

/-- Inverse of `b64Char`: `none` for characters outside the alphabet. -/
def b64Val (c : Char) : Option Nat :=
  if 65 ≤ c.toNat ∧ c.toNat ≤ 90 then some (c.toNat - 65)
  else if 97 ≤ c.toNat ∧ c.toNat ≤ 122 then some (26 + (c.toNat - 97))
  else if 48 ≤ c.toNat ∧ c.toNat ≤ 57 then some (52 + (c.toNat - 48))
  else if c = '+' then some 62
  else if c = '/' then some 63
  else none

/-- Base64-encode a byte list into characters, three bytes per group. -/
def b64EncodeChars : Bytes → List Char
  | [] => []
  | [a] => [b64Char (a / 4), b64Char (a % 4 * 16), '=', '=']
  | [a, b] => [b64Char (a / 4), b64Char (a % 4 * 16 + b / 16),
               b64Char (b % 16 * 4), '=']
  | a :: b :: c :: rest =>
    b64Char (a / 4) :: b64Char (a % 4 * 16 + b / 16) ::
    b64Char (b % 16 * 4 + c / 64) :: b64Char (c % 64) ::
    b64EncodeChars rest

/-- `base64.b64encode(bs).decode('utf-8')`. -/
def b64Encode (bs : Bytes) : String := String.mk (b64EncodeChars bs)

/-- Base64-decode a character list; `none` on malformed input.  A
final group `xy==` carries one byte, `xyz=` two, and a full group
`wxyz` three. -/
def b64DecodeChars : List Char → Option Bytes
  | c1 :: c2 :: c3 :: c4 :: rest =>
    if c3 = '=' ∧ c4 = '=' ∧ rest = [] then
      match b64Val c1, b64Val c2 with
      | some v1, some v2 =>
        if v2 % 16 = 0 then some [v1 * 4 + v2 / 16] else none
      | _, _ => none
    else if c4 = '=' ∧ rest = [] then
      match b64Val c1, b64Val c2, b64Val c3 with
      | some v1, some v2, some v3 =>
        if v3 % 4 = 0 then some [v1 * 4 + v2 / 16, v2 % 16 * 16 + v3 / 4]
        else none
      | _, _, _ => none
    else
      match b64Val c1, b64Val c2, b64Val c3, b64Val c4, b64DecodeChars rest with
      | some v1, some v2, some v3, some v4, some tail =>
        some ((v1 * 4 + v2 / 16) :: (v2 % 16 * 16 + v3 / 4) ::
          (v3 % 4 * 64 + v4) :: tail)
      | _, _, _, _, _ => none
  | [] => some []
  | _ => none

/-- Base64-decode a string to bytes; `none` on malformed input. -/
def b64Decode (s : String) : Option Bytes := b64DecodeChars s.data

/-! ## Configuration constants (`build.py` lines 11-21) -/

def EXE_NAME : String := "SNIBypassGUI.exe"

def VERSION_FILE : String := "version.txt"

def BASE_URL : String := "https://snib.racpast.com/files/"

def CHUNK_SIZE : Nat := 20 * 1024 * 1024

def FINAL_RULES_NAME : String := "ProxyRules.json"

/-! ## Paths

Source and target paths are lists of components.  On the POSIX host
`os.sep = '/'`, so `normalize_path` (line 50) makes the slash-joined
relative path; `joinPath` is that normalized form. -/

/-- Slash-joined relative path (`normalize_path(os.path.relpath(...))`),
i.e. `'/'.join(components)` on the POSIX host. -/
def joinPath : List String → String
  | [] => ""
  | [s] => s
  | s :: t :: rest => s ++ "/" ++ joinPath (t :: rest)

/-- The last component of a path (`file` in the `os.walk` loop). -/
def lastName (p : List String) : String := p.getLastD ""

/-- Python `url.split('/')[-1]`: the suffix after the final slash. -/
def lastSeg (s : String) : String :=
  String.mk ((s.data.reverse.takeWhile (fun c => ¬ c = '/')).reverse)

/-! ## The rule compiler (`compile_rules`, `build.py` lines 53-99)

A rule item is a JSON object with an optional `Id`, optional
`Status`, possibly a `Hosts` field, and arbitrary further fields that
the compiler passes through untouched (`item.copy()`). -/

structure RuleItem where
  Id : Option String
  Status : Option Int
  Hosts : Option String
  extra : List (String × String)
deriving DecidableEq

/-- Python truthiness of `item.get("Id")`: present and non-empty. -/
def idOk : Option String → Bool
  | none => false
  | some s => ¬ s = ""

/-- The per-item transform of the `compile_rules` loop body, for an
item whose `Id` is the truthy `rid`; `texts` maps a rule id to the
content of `src_rules/<Id>.txt` when that file exists. -/
def compileItem (texts : String → Option String) (rid : String)
    (it : RuleItem) : RuleItem :=
  let hosts_content :=
    match texts rid with
    | some t => pyStrip t
    | none => ""
  let encoded_hosts :=
    if hosts_content = "" then ""
    else b64Encode (utf8Encode (crlfJoin (pySplitlines hosts_content)))
  { it with Hosts := some encoded_hosts, Status := some (it.Status.getD 0) }

/-- The `compile_rules` loop: items with a missing or empty `Id` are
skipped (logged, not fatal), all others are transformed in order. -/
def compile_rules (texts : String → Option String) :
    List RuleItem → List RuleItem
  | [] => []
  | it :: rest =>
    match it.Id with
    | none => compile_rules texts rest
    | some rid =>
      if rid = "" then compile_rules texts rest
      else compileItem texts rid it :: compile_rules texts rest

/-! ## The target directory tree

`TARGET_FILES_DIR` with its files and subdirectories; only names
matter to the claims (contents of target files are never read back by
the script).  A mutual inductive keeps all recursion structural. -/

mutual

inductive DirTree : Type where
| mk : List String → DirList → DirTree
deriving DecidableEq

inductive DirList : Type where
| dnil : DirList
| dcons : String → DirTree → DirList → DirList
deriving DecidableEq

end

/-- Is a directory empty (`not os.listdir(dir_path)`)? -/
def dirEmpty : DirTree → Bool
  | .mk fs .dnil => fs.isEmpty
  | .mk _ (.dcons _ _ _) => false

mutual

/-- All file paths in a tree, relative to its root. -/
def filesOf : DirTree → List (List String)
  | .mk fs subs => fs.map (fun f => [f]) ++ filesOfList subs

def filesOfList : DirList → List (List String)
  | .dnil => []
  | .dcons n t rest => (filesOf t).map (fun p => n :: p) ++ filesOfList rest

end

mutual

/-- All directory paths in a tree (the root itself excluded). -/
def dirsOf : DirTree → List (List String)
  | .mk _ subs => dirsOfList subs

def dirsOfList : DirList → List (List String)
  | .dnil => []
  | .dcons n t rest =>
    [n] :: (dirsOf t).map (fun p => n :: p) ++ dirsOfList rest

end

mutual

/-- Write (create or overwrite) the file at `path`, creating
intermediate directories (`os.makedirs(..., exist_ok=True)` followed
by `shutil.copy2` / `open(..., 'wb')`). -/
def insertFile : DirTree → List String → DirTree
  | t, [] => t
  | .mk fs subs, [f] => .mk (if f ∈ fs then fs else fs ++ [f]) subs
  | .mk fs subs, d :: c :: p => .mk fs (insertSub subs d (c :: p))
termination_by t path => (path.length, sizeOf t)
decreasing_by
  simp_wf
  apply Prod.Lex.right
  simp

/-- Write a file into the subdirectory `d`, creating it if missing. -/
def insertSub : DirList → String → List String → DirList
  | .dnil, d, p => .dcons d (insertFile (.mk [] .dnil) p) .dnil
  | .dcons n t rest, d, p =>
    if n = d then .dcons n (insertFile t p) rest
    else .dcons n t (insertSub rest d p)
termination_by subs _ p => (p.length + 1, sizeOf subs)
decreasing_by
  · simp_wf
    apply Prod.Lex.left
    omega
  · simp_wf
    apply Prod.Lex.left
    omega
  · simp_wf
    apply Prod.Lex.right
    simp

end

/-- Delete a file at the root of the tree (`os.remove` of
`target-repo/files/update.zip`). -/
def removeRootFile : DirTree → String → DirTree
  | .mk fs subs, f => .mk (fs.filter (fun g => ¬ g = f)) subs

mutual

/-- The orphan-cleanup pass (`build.py` lines 193-206): walk
bottom-up; delete every file whose slash-normalized path relative to
the target root is not in `valid`; delete every directory that is
empty once its subtree has been processed. `pfx` is the path of the
current root relative to the target root. -/
def cleanupTree (valid : List String) (pfx : List String) : DirTree → DirTree
  | .mk fs subs =>
    .mk (fs.filter (fun f => joinPath (pfx ++ [f]) ∈ valid))
        (cleanupList valid pfx subs)

def cleanupList (valid : List String) (pfx : List String) : DirList → DirList
  | .dnil => .dnil
  | .dcons n t rest =>
    if dirEmpty (cleanupTree valid (pfx ++ [n]) t) then cleanupList valid pfx rest
    else .dcons n (cleanupTree valid (pfx ++ [n]) t) (cleanupList valid pfx rest)

end

/-! ## The manifest (`latest.json`, `build.py` lines 133-138) -/

structure ExecutableEntry where
  update_required : Bool
  hash : String
  parts : List String
deriving DecidableEq

structure AssetEntry where
  path : String
  url : String
  hash : String
deriving DecidableEq

structure Manifest where
  version : String
  timestamp : Nat
  executable : ExecutableEntry
  assets : List AssetEntry
deriving DecidableEq

/-- The executable entry `main` starts from (line 136). -/
def emptyExeEntry : ExecutableEntry := ⟨false, "", []⟩

/-! ## The run (`main`, `build.py` lines 101-212)

Abstract primitives: `digest` is `calculate_sha256` on the file's
bytes, `zipExe` the bytes of the single-entry deflated archive
`zipfile` produces for the executable, `encRules` the
`json.dump(compiled_list, indent=4)` serialization, `decText` the
UTF-8 decoding used when reading `version.txt`.  All are
deterministic functions, which is exactly what the claims rely on;
no claim depends on their byte-level behaviour. -/

structure Prim where
  digest : Bytes → String
  zipExe : Bytes → Bytes
  encRules : List RuleItem → Bytes
  decText : Bytes → String

/-- Files under `SOURCE_DIR`, in `os.walk` order (relative path
components, contents).  The walk order is abstracted as the list
order; it is a deterministic function of the directory state. -/
abbrev SrcFiles := List (List String × Bytes)

/-- `open(path)` / `os.path.exists` on the source tree: first entry
with the given relative path. -/
def lookupFile (src : SrcFiles) (p : List String) : Option Bytes :=
  (src.find? (fun e => e.1 == p)).map (fun e => e.2)

/-- Writing a file into the source tree: overwrite in place if the
path exists, else create it. -/
def upsert (src : SrcFiles) (p : List String) (v : Bytes) : SrcFiles :=
  if src.any (fun e => e.1 == p) then
    src.map (fun e => if e.1 == p then (p, v) else e)
  else src ++ [(p, v)]

/-- The state a run starts from.  `srcFiles = none` models a missing
`SOURCE_DIR`; `rulesMeta = none` a missing `rules_meta.json`;
`oldManifest = none` a missing or unparseable `latest.json`
(`build.py` lines 123-131 absorb both into the empty prior state);
`target` is the pre-run `TARGET_FILES_DIR` tree (created empty when
missing, line 111-112). -/
structure Input where
  srcFiles : Option SrcFiles
  rulesMeta : Option (List RuleItem)
  ruleTexts : String → Option String
  oldManifest : Option Manifest
  target : DirTree

/-- Step 0, `compile_rules` (lines 53-99 and 105): when the meta file
exists, the compiled list is written to
`SOURCE_DIR/Data/ProxyRules.json` — and `os.makedirs` on that path
creates `SOURCE_DIR` itself when it was absent.  Returns the source
tree as it stands when the existence check on line 108 runs. -/
def afterCompile (prim : Prim) (inp : Input) : Option SrcFiles :=
  match inp.rulesMeta with
  | none => inp.srcFiles
  | some meta =>
    let compiled := compile_rules inp.ruleTexts meta
    some (upsert (inp.srcFiles.getD []) ["Data", FINAL_RULES_NAME]
      (prim.encRules compiled))

/-- Step 4 in the Republished branch (lines 152-169): archive, split,
delete the temporary archive, and build the new entry.  Returns the
entry, the updated target tree and the part filenames added to
`valid_target_files`. -/
def republishExe (prim : Prim) (t : DirTree) (cur : String) (exeBytes : Bytes) :
    ExecutableEntry × DirTree × List String :=
  let parts := split_file CHUNK_SIZE "update.zip" (prim.zipExe exeBytes)
  let names := parts.map (fun e => e.1)
  let t1 := insertFile t ["update.zip"]
  let t2 := names.foldl (fun a n => insertFile a [n]) t1
  let t3 := removeRootFile t2 "update.zip"
  (⟨true, cur, names.map (fun n => BASE_URL ++ n)⟩, t3, names)

/-- Step 4, `# Process Executable` (lines 140-169). -/
def exeStage (prim : Prim) (oldM : Option Manifest) (t : DirTree)
    (src : SrcFiles) : ExecutableEntry × DirTree × List String :=
  match lookupFile src [EXE_NAME] with
  | none => (emptyExeEntry, t, [])
  | some exeBytes =>
    let cur := prim.digest exeBytes
    match oldM with
    | some om =>
      if cur = om.executable.hash then
        (om.executable, t, om.executable.parts.map lastSeg)
      else republishExe prim t cur exeBytes
    | none => republishExe prim t cur exeBytes

/-- The exclusion test of the asset loop (line 175): by bare filename,
at any depth. -/
def excludedFile (p : List String) : Bool :=
  lastName p = EXE_NAME ∨ lastName p = VERSION_FILE

/-- One iteration of the asset loop (lines 173-191): skip files named
like the executable or the version marker, otherwise copy and record. -/
def assetStep (digest : Bytes → String)
    (acc : DirTree × List String × List AssetEntry)
    (e : List String × Bytes) : DirTree × List String × List AssetEntry :=
  if excludedFile e.1 then acc
  else
    let np := joinPath e.1
    (insertFile acc.1 e.1, acc.2.1 ++ [np],
     acc.2.2 ++ [⟨np, BASE_URL ++ np, digest e.2⟩])

/-- Step 5, `# Process Assets` (lines 171-191). -/
def assetStage (digest : Bytes → String) (t : DirTree) (valid : List String)
    (src : SrcFiles) : DirTree × List String × List AssetEntry :=
  src.foldl (assetStep digest) (t, valid, [])

/-- The observable outcome of a run: process exit code, the state of
the persisted `latest.json` after the run, the manifest written this
run (if any), the post-run target tree, and the post-run source tree. -/
structure RunResult where
  exitCode : Nat
  persisted : Option Manifest
  newManifest : Option Manifest
  target : DirTree
  srcAfter : Option SrcFiles

/-- Step 2, `# Read Version` (lines 116-121). -/
def versionOf (prim : Prim) (src : SrcFiles) : String :=
  match lookupFile src [VERSION_FILE] with
  | some bs => pyStrip (prim.decText bs)
  | none => "V1.0.0"

/-- The success path of `main` (lines 111-212), once the source root
exists: version read, executable stage, asset sync, orphan cleanup,
manifest write. -/
def runSuccess (prim : Prim) (now : Nat) (inp : Input) (src : SrcFiles) :
    RunResult :=
  let ex := exeStage prim inp.oldManifest inp.target src
  let as := assetStage prim.digest ex.2.1 ex.2.2 src
  let t3 := cleanupTree as.2.1 [] as.1
  let nm : Manifest := ⟨versionOf prim src, now, ex.1, as.2.2⟩
  ⟨0, some nm, some nm, t3, some src⟩

/-- `main` (`build.py` lines 101-212), with `now = int(time.time())`.
When the source root is still missing after rule compilation, the
process exits with status 1 before touching the manifest. -/
def main (prim : Prim) (now : Nat) (inp : Input) : RunResult :=
  match afterCompile prim inp with
  | none => ⟨1, inp.oldManifest, none, inp.target, none⟩
  | some src => runSuccess prim now inp src

/-! # Lemmas

## Decimal digits and part names -/

theorem decDigits_length (n : Nat) :
    (decDigits n).length = if n < 10 then 1 else (decDigits (n / 10)).length + 1 := by
  conv_lhs => rw [decDigits]
  split <;> simp

theorem decDigits_length_pos (n : Nat) : 1 ≤ (decDigits n).length := by
  rw [decDigits_length]
  split <;> omega

theorem decDigits_length_le_three (n : Nat) (h : n < 1000) :
    (decDigits n).length ≤ 3 := by
  rw [decDigits_length]
  split
  · omega
  · rw [decDigits_length]
    split
    · omega
    · rw [decDigits_length]
      split
      · omega
      · exfalso
        omega

theorem decDigits_length_ge_four (n : Nat) (h : 1000 ≤ n) :
    4 ≤ (decDigits n).length := by
  rw [decDigits_length]
  split
  · omega
  · rw [decDigits_length]
    split
    · omega
    · rw [decDigits_length]
      split
      · omega
      · have := decDigits_length_pos (n / 10 / 10 / 10)
        omega

theorem toNat_ofNat_digit : ∀ d, d < 10 → (Char.ofNat (48 + d)).toNat = 48 + d := by
  decide

theorem decDigits_digits (n : Nat) :
    ∀ c ∈ decDigits n, 48 ≤ c.toNat ∧ c.toNat ≤ 57 := by
  rw [decDigits]
  split
  · rename_i h
    intro c hc
    simp at hc
    subst hc
    rw [toNat_ofNat_digit n h]
    omega
  · intro c hc
    rw [List.mem_append] at hc
    rcases hc with hc | hc
    · exact decDigits_digits (n / 10) c hc
    · simp at hc
      subst hc
      rw [toNat_ofNat_digit _ (Nat.mod_lt _ (by omega))]
      have := Nat.mod_lt n (show 0 < 10 by omega)
      omega
termination_by n
decreasing_by
  rename_i h
  exact Nat.div_lt_self (by omega) (by omega)

/-- The accumulator step of reading decimal digits back. -/
def digitStep (a : Nat) (c : Char) : Nat := a * 10 + (c.toNat - 48)

/-- Numeric value of a digit string (ignores leading zeros). -/
def digitsVal (l : List Char) : Nat := l.foldl digitStep 0

theorem digitsVal_decDigits (n : Nat) : digitsVal (decDigits n) = n := by
  rw [decDigits]
  split
  · rename_i h
    simp [digitsVal, digitStep, toNat_ofNat_digit n h]
  · rename_i h
    have ih := digitsVal_decDigits (n / 10)
    simp only [digitsVal] at ih ⊢
    rw [List.foldl_append, ih]
    simp [digitStep, toNat_ofNat_digit _ (Nat.mod_lt n (show 0 < 10 by omega))]
    omega
termination_by n
decreasing_by
  rename_i h
  exact Nat.div_lt_self (by omega) (by omega)

theorem foldl_digitStep_replicate (k : Nat) :
    List.foldl digitStep 0 (List.replicate k '0') = 0 := by
  induction k with
  | zero => rfl
  | succ m ih => simpa [List.replicate_succ, digitStep] using ih

theorem digitsVal_pad3 (n : Nat) : digitsVal (pad3 n).data = n := by
  show digitsVal (List.replicate _ '0' ++ decDigits n) = n
  simp only [digitsVal, List.foldl_append, foldl_digitStep_replicate]
  exact digitsVal_decDigits n

theorem pad3_injective {m n : Nat} (h : pad3 m = pad3 n) : m = n := by
  have := congrArg (fun s => digitsVal s.data) h
  simpa [digitsVal_pad3] using this

theorem pad3_length (n : Nat) :
    (pad3 n).length = max 3 (decDigits n).length := by
  show (List.replicate _ '0' ++ decDigits n).length = _
  simp [List.length_append, List.length_replicate]
  omega

theorem pad3_length_of_lt (n : Nat) (h : n < 1000) : (pad3 n).length = 3 := by
  have h1 := decDigits_length_le_three n h
  rw [pad3_length]
  omega

theorem pad3_length_of_ge (n : Nat) (h : 1000 ≤ n) : 4 ≤ (pad3 n).length := by
  have h1 := decDigits_length_ge_four n h
  rw [pad3_length]
  omega

theorem pad3_ne_slash (n : Nat) : ∀ c ∈ (pad3 n).data, ¬ c = '/' := by
  show ∀ c ∈ List.replicate _ '0' ++ decDigits n, _
  intro c hc
  rw [List.mem_append] at hc
  rcases hc with hc | hc
  · rw [List.eq_of_mem_replicate hc]
    decide
  · have := decDigits_digits n c hc
    intro he
    subst he
    simp at this

theorem partName_injective (f : String) {m n : Nat}
    (h : partName f m = partName f n) : m = n := by
  have hd := congrArg String.data h
  simp only [partName, String.data_append, List.append_assoc] at hd
  have h2 := List.append_cancel_left (List.append_cancel_left hd)
  have h3 : pad3 m = pad3 n := by
    have := congrArg String.mk h2
    simpa using this
  exact pad3_injective h3

theorem partName_ne_slash (f : String) (hf : ∀ c ∈ f.data, ¬ c = '/')
    (n : Nat) : ∀ c ∈ (partName f n).data, ¬ c = '/' := by
  intro c hc
  simp only [partName, String.data_append] at hc
  rw [List.mem_append] at hc
  rcases hc with hc | hc
  · rw [List.mem_append] at hc
    rcases hc with hc | hc
    · exact hf c hc
    · intro he
      subst he
      exact absurd hc (by decide)
  · exact pad3_ne_slash n c hc

/-! ## `split_file` -/

theorem splitLoop_nil (csize : Nat) (f : String) (i : Nat) :
    splitLoop csize f i [] = [] := by
  rw [splitLoop]
  simp

theorem splitLoop_cons (csize : Nat) (f : String) (i : Nat) (bs : Bytes)
    (hc : ¬ csize = 0) (hb : ¬ bs = []) :
    splitLoop csize f i bs =
      (partName f i, bs.take csize) :: splitLoop csize f (i + 1) (bs.drop csize) := by
  rw [splitLoop]
  rw [if_neg (by simp [hc, hb])]

theorem splitLoop_flatten (csize : Nat) (f : String) (hc : 0 < csize)
    (bs : Bytes) (i : Nat) :
    ((splitLoop csize f i bs).map Prod.snd).flatten = bs := by
  by_cases hb : bs = []
  · subst hb
    rw [splitLoop_nil]
    rfl
  · rw [splitLoop_cons csize f i bs (by omega) hb]
    simp only [List.map_cons, List.flatten_cons]
    rw [splitLoop_flatten csize f hc (bs.drop csize) (i + 1)]
    exact List.take_append_drop csize bs
termination_by bs.length
decreasing_by
  have : 0 < bs.length := List.length_pos.mpr hb
  simp only [List.length_drop]
  omega

theorem ceil_div_step (L c : Nat) (hc : 1 ≤ c) (hL : 1 ≤ L) :
    (L - c + c - 1) / c + 1 = (L + c - 1) / c := by
  have hR : L + c - 1 = (L - 1) + c := by omega
  rw [hR, Nat.add_div_right _ (by omega)]
  by_cases h : L ≤ c
  · have h0 : L - c = 0 := by omega
    rw [h0]
    have : (0 + c - 1) / c = 0 := Nat.div_eq_of_lt (by omega)
    rw [this]
    have : (L - 1) / c = 0 := Nat.div_eq_of_lt (by omega)
    rw [this]
  · have hR2 : L - c + c - 1 = (L - c - 1) + c := by omega
    rw [hR2, Nat.add_div_right _ (by omega)]
    have : L - 1 = (L - c - 1) + c := by omega
    rw [this, Nat.add_div_right _ (by omega)]

theorem splitLoop_length (csize : Nat) (f : String) (hc : 0 < csize)
    (bs : Bytes) (i : Nat) :
    (splitLoop csize f i bs).length = (bs.length + csize - 1) / csize := by
  by_cases hb : bs = []
  · subst hb
    rw [splitLoop_nil]
    simp [Nat.div_eq_of_lt (show csize - 1 < csize by omega)]
  · rw [splitLoop_cons csize f i bs (by omega) hb]
    simp only [List.length_cons]
    rw [splitLoop_length csize f hc (bs.drop csize) (i + 1)]
    simp only [List.length_drop]
    exact ceil_div_step bs.length csize (by omega)
      (by have := List.length_pos.mpr hb; omega)
termination_by bs.length
decreasing_by
  have : 0 < bs.length := List.length_pos.mpr hb
  simp only [List.length_drop]
  omega

/-! ## Base64 and UTF-8 -/

theorem b64Val_b64Char : ∀ n, n < 64 → b64Val (b64Char n) = some n := by
  decide

theorem b64Char_ne_pad : ∀ n, n < 64 → ¬ b64Char n = '=' := by
  decide

theorem char_toNat_lt (c : Char) : c.toNat < 1114112 := by
  have h := c.valid
  simp only [UInt32.isValidChar, Nat.isValidChar] at h
  show c.val.toNat < 1114112
  omega

theorem utf8Char_lt (c : Char) : ∀ b ∈ utf8Char c, b < 256 := by
  have hv := char_toNat_lt c
  intro b hb
  simp only [utf8Char] at hb
  split at hb
  · simp at hb
    omega
  · split at hb
    · simp at hb
      rcases hb with h | h <;> omega
    · split at hb
      · simp at hb
        rcases hb with h | h | h <;> omega
      · simp at hb
        rcases hb with h | h | h | h <;> omega

theorem utf8Encode_lt (s : String) : ∀ b ∈ utf8Encode s, b < 256 := by
  intro b hb
  simp only [utf8Encode, List.mem_flatten, List.mem_map] at hb
  obtain ⟨l, ⟨c, _, hcl⟩, hbl⟩ := hb
  exact utf8Char_lt c b (hcl ▸ hbl)

theorem b64EncodeChars_roundtrip :
    ∀ bs : Bytes, (∀ x ∈ bs, x < 256) →
      b64DecodeChars (b64EncodeChars bs) = some bs
  | [], _ => rfl
  | [a], h => by
    have ha : a < 256 := h a (by simp)
    have h1 := b64Val_b64Char (a / 4) (by omega)
    have h2 := b64Val_b64Char (a % 4 * 16) (by omega)
    simp only [b64EncodeChars, b64DecodeChars, h1, h2]
    split
    · split
      · congr 2
        omega
      · rename_i hm
        exact absurd (by omega) hm
    · rename_i hm
      exact absurd (by decide) hm
  | [a, b], h => by
    have ha : a < 256 := h a (by simp)
    have hb : b < 256 := h b (by simp)
    have h1 := b64Val_b64Char (a / 4) (by omega)
    have h2 := b64Val_b64Char (a % 4 * 16 + b / 16) (by omega)
    have h3 := b64Val_b64Char (b % 16 * 4) (by omega)
    have hne := b64Char_ne_pad (b % 16 * 4) (by omega)
    simp only [b64EncodeChars, b64DecodeChars, h1, h2, h3]
    split
    · rename_i hm
      exact absurd hm.1 hne
    · split
      · split
        · congr 2
          · omega
          · congr 1
            omega
        · rename_i hm
          exact absurd (by omega) hm
      · rename_i hm
        exact absurd (by decide) hm
  | a :: b :: c :: rest, h => by
    have ha : a < 256 := h a (by simp)
    have hb : b < 256 := h b (by simp)
    have hc : c < 256 := h c (by simp)
    have h1 := b64Val_b64Char (a / 4) (by omega)
    have h2 := b64Val_b64Char (a % 4 * 16 + b / 16) (by omega)
    have h3 := b64Val_b64Char (b % 16 * 4 + c / 64) (by omega)
    have h4 := b64Val_b64Char (c % 64) (by omega)
    have hne3 := b64Char_ne_pad (b % 16 * 4 + c / 64) (by omega)
    have hne4 := b64Char_ne_pad (c % 64) (by omega)
    have ih := b64EncodeChars_roundtrip rest (fun x hx => h x (by simp [hx]))
    simp only [b64EncodeChars, b64DecodeChars, h1, h2, h3, h4, ih]
    split
    · rename_i hm
      exact absurd hm.1 hne3
    · split
      · rename_i hm
        exact absurd hm.1 hne4
      · congr 2
        · omega
        · congr 1
          · omega
          · congr 1
            omega

/-- The round trip used by the `Hosts` claims. -/
theorem b64Decode_b64Encode (bs : Bytes) (h : ∀ x ∈ bs, x < 256) :
    b64Decode (b64Encode bs) = some bs :=
  b64EncodeChars_roundtrip bs h

/-! ## `splitlines`, `strip` and the CRLF rejoin -/

theorem eq_empty_of_data_eq_nil {s : String} (h : s.data = []) : s = "" := by
  cases s with
  | mk d =>
    simp only at h
    subst h
    rfl

theorem mk_eq_empty_iff (l : List Char) : String.mk l = "" ↔ l = [] := by
  constructor
  · intro h
    exact congrArg String.data h
  · intro h
    subst h
    rfl

theorem dropWhile_head_not {p : Char → Bool} :
    ∀ (l : List Char) (c : Char), (l.dropWhile p).head? = some c → p c = false
  | [], c => by simp
  | a :: t, c => by
    rw [List.dropWhile_cons]
    split
    · exact dropWhile_head_not t c
    · rename_i h
      intro hh
      simp at hh
      subst hh
      simpa using h

theorem getLast?_cons_of_ne_nil {α : Type} (a : α) (l : List α) (h : ¬ l = []) :
    (a :: l).getLast? = l.getLast? := by
  cases l with
  | nil => exact absurd rfl h
  | cons b t => exact List.getLast?_cons_cons

mutual

theorem splitlinesAux_no_boundary :
    ∀ (l acc : List Char), (∀ c ∈ acc, pyLineBoundary c = false) →
      ∀ s ∈ splitlinesAux l acc, ∀ c ∈ s.data, pyLineBoundary c = false
  | [], acc => by
    intro hacc s hs c hc
    rw [splitlinesAux] at hs
    split at hs
    · simp at hs
    · simp at hs
      subst hs
      simp at hc
      exact hacc c hc
  | c0 :: rest, acc => by
    intro hacc s hs c hc
    rw [splitlinesAux] at hs
    split at hs
    · rcases List.mem_cons.mp hs with h | h
      · subst h
        simp at hc
        exact hacc c hc
      · exact splitlinesCont_no_boundary c0 rest s h c hc
    · rename_i hb
      refine splitlinesAux_no_boundary rest (c0 :: acc) ?_ s hs c hc
      intro x hx
      rcases List.mem_cons.mp hx with h | h
      · subst h
        simpa using hb
      · exact hacc x h
termination_by l _ => 2 * l.length
decreasing_by
  · simp_arith
  · simp
    omega

theorem splitlinesCont_no_boundary :
    ∀ (c0 : Char) (l : List Char),
      ∀ s ∈ splitlinesCont c0 l, ∀ c ∈ s.data, pyLineBoundary c = false
  | c0, [] => by
    intro s hs
    rw [splitlinesCont] at hs
    simp at hs
  | c0, c2 :: rest => by
    intro s hs c hc
    rw [splitlinesCont] at hs
    split at hs
    · exact splitlinesAux_no_boundary rest [] (by simp) s hs c hc
    · exact splitlinesAux_no_boundary (c2 :: rest) [] (by simp) s hs c hc
termination_by _ l => 2 * l.length + 1
decreasing_by
  · simp_arith
  · simp_arith

end

/-- The last line of a `splitlines` result is non-empty when the
input does not end in a line boundary. -/
def lastOk (L : List String) : Prop := ∀ s, L.getLast? = some s → ¬ s = ""

mutual

theorem splitlinesAux_lastOk :
    ∀ (l acc : List Char), (∀ c, l.getLast? = some c → pyLineBoundary c = false) →
      ((l = [] ∧ acc = []) ∨ ¬ splitlinesAux l acc = []) ∧ lastOk (splitlinesAux l acc)
  | [], acc => by
    intro hl
    rw [splitlinesAux]
    by_cases hacc : acc = []
    · rw [if_pos hacc]
      exact ⟨Or.inl ⟨rfl, hacc⟩, by intro s hs; simp at hs⟩
    · rw [if_neg hacc]
      refine ⟨Or.inr (by simp), ?_⟩
      intro s hs
      simp at hs
      subst hs
      rw [mk_eq_empty_iff]
      simpa using hacc
  | c0 :: rest, acc => by
    intro hl
    rw [splitlinesAux]
    split
    · rename_i hb
      have hrest : ¬ rest = [] := by
        intro he
        subst he
        have := hl c0 (by simp)
        rw [this] at hb
        exact Bool.false_ne_true hb
      have hl' : ∀ c, rest.getLast? = some c → pyLineBoundary c = false := by
        intro c hc
        exact hl c ((getLast?_cons_of_ne_nil c0 rest hrest) ▸ hc)
      have hcont := splitlinesCont_lastOk c0 rest hrest hl'
      refine ⟨Or.inr (by simp), ?_⟩
      intro s hs
      rw [getLast?_cons_of_ne_nil _ _ hcont.1] at hs
      exact hcont.2 s hs
    · have hl' : ∀ c, rest.getLast? = some c → pyLineBoundary c = false := by
        intro c hc
        by_cases hrest : rest = []
        · subst hrest
          simp at hc
        · exact hl c ((getLast?_cons_of_ne_nil c0 rest hrest) ▸ hc)
      have ih := splitlinesAux_lastOk rest (c0 :: acc) hl'
      refine ⟨?_, ih.2⟩
      rcases ih.1 with ⟨_, h2⟩ | h
      · exact absurd h2 (by simp)
      · exact Or.inr h
termination_by l _ => 2 * l.length
decreasing_by
  · simp_arith
  · simp
    omega

theorem splitlinesCont_lastOk :
    ∀ (c0 : Char) (l : List Char), ¬ l = [] →
      (∀ c, l.getLast? = some c → pyLineBoundary c = false) →
      ¬ splitlinesCont c0 l = [] ∧ lastOk (splitlinesCont c0 l)
  | c0, [] => by
    intro h
    exact absurd rfl h
  | c0, c2 :: rest2 => by
    intro _ hl
    rw [splitlinesCont]
    split
    · rename_i hcr
      have hrest2 : ¬ rest2 = [] := by
        intro he
        subst he
        have := hl c2 (by simp)
        rw [hcr.2] at this
        exact absurd this (by decide)
      have hl' : ∀ c, rest2.getLast? = some c → pyLineBoundary c = false := by
        intro c hc
        exact hl c ((getLast?_cons_of_ne_nil c2 rest2 hrest2) ▸ hc)
      have ih := splitlinesAux_lastOk rest2 [] hl'
      refine ⟨?_, ih.2⟩
      rcases ih.1 with ⟨h1, _⟩ | h
      · exact absurd h1 hrest2
      · exact h
    · have ih := splitlinesAux_lastOk (c2 :: rest2) [] hl
      refine ⟨?_, ih.2⟩
      rcases ih.1 with ⟨h1, _⟩ | h
      · exact absurd h1 (by simp)
      · exact h
termination_by _ l => 2 * l.length + 1
decreasing_by
  · simp_arith
  · simp_arith

end

theorem splitlinesAux_append_crlf :
    ∀ (line tail acc : List Char), (∀ c ∈ line, pyLineBoundary c = false) →
      splitlinesAux (line ++ '\r' :: '\n' :: tail) acc =
        String.mk (acc.reverse ++ line) :: splitlinesAux tail []
  | [], tail, acc => by
    intro _
    simp only [List.nil_append]
    rw [splitlinesAux]
    rw [if_pos (by decide)]
    rw [splitlinesCont]
    rw [if_pos ⟨rfl, rfl⟩]
    simp
  | c :: line', tail, acc => by
    intro h
    have hc : pyLineBoundary c = false := h c (by simp)
    simp only [List.cons_append]
    rw [splitlinesAux]
    rw [if_neg (by simp [hc])]
    rw [splitlinesAux_append_crlf line' tail (c :: acc)
      (fun x hx => h x (by simp [hx]))]
    congr 2
    simp

theorem splitlinesAux_all :
    ∀ (line acc : List Char), (∀ c ∈ line, pyLineBoundary c = false) →
      splitlinesAux line acc =
        if acc.reverse ++ line = [] then []
        else [String.mk (acc.reverse ++ line)]
  | [], acc => by
    intro _
    rw [splitlinesAux]
    by_cases hacc : acc = []
    · subst hacc
      simp
    · rw [if_neg hacc]
      rw [if_neg (by simpa using hacc)]
      simp
  | c :: line', acc => by
    intro h
    have hc : pyLineBoundary c = false := h c (by simp)
    rw [splitlinesAux]
    rw [if_neg (by simp [hc])]
    rw [splitlinesAux_all line' (c :: acc) (fun x hx => h x (by simp [hx]))]
    have hne : ¬ (c :: acc).reverse ++ line' = [] := by simp
    rw [if_neg hne]
    rw [if_neg (by simp)]
    congr 2
    simp

theorem pySplitlines_crlfJoin :
    ∀ (L : List String), (∀ s ∈ L, ∀ c ∈ s.data, pyLineBoundary c = false) →
      lastOk L → pySplitlines (crlfJoin L) = L
  | [] => by
    intro _ _
    show splitlinesAux "".data [] = []
    rw [show "".data = ([] : List Char) from rfl, splitlinesAux]
    simp
  | [s] => by
    intro hnb hlast
    have hs : ¬ s = "" := hlast s (by simp)
    show splitlinesAux (crlfJoin [s]).data [] = [s]
    have : crlfJoin [s] = s := rfl
    rw [this]
    rw [splitlinesAux_all s.data [] (hnb s (by simp))]
    rw [if_neg (by simp; intro he; exact hs ((mk_eq_empty_iff s.data).mpr he ▸ rfl))]
    simp
  | s :: t :: rest => by
    intro hnb hlast
    show splitlinesAux (crlfJoin (s :: t :: rest)).data [] = _
    have hj : crlfJoin (s :: t :: rest) = s ++ "\r\n" ++ crlfJoin (t :: rest) := rfl
    rw [hj]
    have hdata : (s ++ "\r\n" ++ crlfJoin (t :: rest)).data =
        s.data ++ '\r' :: '\n' :: (crlfJoin (t :: rest)).data := by
      simp [String.data_append]
    rw [hdata]
    rw [splitlinesAux_append_crlf s.data _ [] (hnb s (by simp))]
    have hrec := pySplitlines_crlfJoin (t :: rest)
      (fun x hx => hnb x (by simp [hx]))
      (fun x hx => hlast x ((getLast?_cons_of_ne_nil s (t :: rest) (by simp)) ▸ hx))
    rw [show splitlinesAux (crlfJoin (t :: rest)).data [] =
      pySplitlines (crlfJoin (t :: rest)) from rfl]
    rw [hrec]
    simp

theorem pySpace_of_boundary : ∀ c, pyLineBoundary c = true → pySpace c = true := by
  intro c h
  simp only [pyLineBoundary, decide_eq_true_eq] at h
  rcases h with rfl | rfl | rfl | rfl | rfl | rfl | rfl | rfl | rfl | rfl <;> decide

theorem pyStrip_lastOk (s : String) :
    pyStrip s = "" ∨
      (¬ (pyStrip s).data = [] ∧
        ∀ c, (pyStrip s).data.getLast? = some c → pySpace c = false) := by
  have hd : (pyStrip s).data =
      ((s.data.dropWhile pySpace).reverse.dropWhile pySpace).reverse := rfl
  cases hcase : (s.data.dropWhile pySpace).reverse.dropWhile pySpace with
  | nil =>
    left
    apply eq_empty_of_data_eq_nil
    rw [hd, hcase]
    rfl
  | cons c0 m' =>
    right
    have hdata : (pyStrip s).data = (c0 :: m').reverse := by rw [hd, hcase]
    constructor
    · rw [hdata]
      simp
    · intro c hc
      rw [hdata, List.getLast?_reverse] at hc
      simp at hc
      subst hc
      exact dropWhile_head_not _ c0 (by rw [hcase]; rfl)

/-! ## Target-tree lemmas -/

mutual

theorem filesOf_ne_nil : ∀ (t : DirTree), ∀ p ∈ filesOf t, ¬ p = []
  | .mk fs subs => by
    intro p hp
    rw [filesOf] at hp
    rcases List.mem_append.mp hp with h | h
    · obtain ⟨f, _, hf⟩ := List.mem_map.mp h
      subst hf
      simp
    · exact filesOfList_ne_nil subs p h

theorem filesOfList_ne_nil : ∀ (l : DirList), ∀ p ∈ filesOfList l, ¬ p = []
  | .dnil => by
    intro p hp
    rw [filesOfList] at hp
    simp at hp
  | .dcons n t rest => by
    intro p hp
    rw [filesOfList] at hp
    rcases List.mem_append.mp hp with h | h
    · obtain ⟨q, _, hq⟩ := List.mem_map.mp h
      subst hq
      simp
    · exact filesOfList_ne_nil rest p h

end

mutual

theorem mem_filesOf_insertFile :
    ∀ (t : DirTree) (p q : List String), q ∈ filesOf t →
      q ∈ filesOf (insertFile t p)
  | t, [], q => by
    intro h
    rw [insertFile]
    exact h
  | .mk fs subs, [f], q => by
    intro h
    rw [insertFile]
    rw [filesOf] at h ⊢
    rcases List.mem_append.mp h with h1 | h1
    · apply List.mem_append.mpr
      left
      split
      · exact h1
      · obtain ⟨g, hg, hgq⟩ := List.mem_map.mp h1
        exact List.mem_map.mpr ⟨g, by simp [hg], hgq⟩
    · exact List.mem_append.mpr (Or.inr h1)
  | .mk fs subs, d :: c :: p, q => by
    intro h
    rw [insertFile]
    rw [filesOf] at h ⊢
    rcases List.mem_append.mp h with h1 | h1
    · exact List.mem_append.mpr (Or.inl h1)
    · exact List.mem_append.mpr
        (Or.inr (mem_filesOfList_insertSub subs d (c :: p) q h1))
termination_by t p _ => (p.length, sizeOf t)
decreasing_by
  simp_wf
  apply Prod.Lex.right
  simp

theorem mem_filesOfList_insertSub :
    ∀ (l : DirList) (d : String) (p : List String) (q : List String),
      q ∈ filesOfList l → q ∈ filesOfList (insertSub l d p)
  | .dnil, d, p, q => by
    intro h
    rw [filesOfList] at h
    simp at h
  | .dcons n t rest, d, p, q => by
    intro h
    rw [insertSub]
    rw [filesOfList] at h
    split
    · rename_i hnd
      rw [filesOfList]
      rcases List.mem_append.mp h with h1 | h1
      · obtain ⟨q', hq', hq⟩ := List.mem_map.mp h1
        exact List.mem_append.mpr (Or.inl (List.mem_map.mpr
          ⟨q', mem_filesOf_insertFile t p q' hq', hq⟩))
      · exact List.mem_append.mpr (Or.inr h1)
    · rw [filesOfList]
      rcases List.mem_append.mp h with h1 | h1
      · exact List.mem_append.mpr (Or.inl h1)
      · exact List.mem_append.mpr
          (Or.inr (mem_filesOfList_insertSub rest d p q h1))
termination_by l _ p _ => (p.length + 1, sizeOf l)
decreasing_by
  all_goals simp_wf
  all_goals first
    | (apply Prod.Lex.right; simp)
    | (apply Prod.Lex.left; omega)

end

mutual

theorem mem_filesOf_of_insertFile :
    ∀ (t : DirTree) (p q : List String), q ∈ filesOf (insertFile t p) →
      q = p ∨ q ∈ filesOf t
  | t, [], q => by
    intro h
    rw [insertFile] at h
    exact Or.inr h
  | .mk fs subs, [f], q => by
    intro h
    rw [insertFile] at h
    rw [filesOf] at h
    rw [filesOf]
    rcases List.mem_append.mp h with h1 | h1
    · split at h1
      · exact Or.inr (List.mem_append.mpr (Or.inl h1))
      · obtain ⟨g, hg, hgq⟩ := List.mem_map.mp h1
        rcases List.mem_append.mp hg with h2 | h2
        · exact Or.inr (List.mem_append.mpr
            (Or.inl (List.mem_map.mpr ⟨g, h2, hgq⟩)))
        · simp at h2
          subst h2
          exact Or.inl hgq.symm
    · exact Or.inr (List.mem_append.mpr (Or.inr h1))
  | .mk fs subs, d :: c :: p, q => by
    intro h
    rw [insertFile] at h
    rw [filesOf] at h
    rw [filesOf]
    rcases List.mem_append.mp h with h1 | h1
    · exact Or.inr (List.mem_append.mpr (Or.inl h1))
    · rcases mem_filesOfList_of_insertSub subs d (c :: p) q h1 with h2 | h2
      · exact Or.inl h2
      · exact Or.inr (List.mem_append.mpr (Or.inr h2))
termination_by t p _ => (p.length, sizeOf t)
decreasing_by
  simp_wf
  apply Prod.Lex.right
  simp

theorem mem_filesOfList_of_insertSub :
    ∀ (l : DirList) (d : String) (p : List String) (q : List String),
      q ∈ filesOfList (insertSub l d p) → q = d :: p ∨ q ∈ filesOfList l
  | .dnil, d, p, q => by
    intro h
    rw [insertSub] at h
    rw [filesOfList] at h
    rcases List.mem_append.mp h with h1 | h1
    · obtain ⟨q', hq', hq⟩ := List.mem_map.mp h1
      rcases mem_filesOf_of_insertFile (.mk [] .dnil) p q' hq' with h2 | h2
      · subst h2
        exact Or.inl hq.symm
      · rw [filesOf] at h2
        rw [filesOfList] at h2
        simp at h2
    · rw [filesOfList] at h1
      simp at h1
  | .dcons n t rest, d, p, q => by
    intro h
    rw [insertSub] at h
    split at h
    · rename_i hnd
      subst hnd
      rw [filesOfList] at h
      rw [filesOfList]
      rcases List.mem_append.mp h with h1 | h1
      · obtain ⟨q', hq', hq⟩ := List.mem_map.mp h1
        rcases mem_filesOf_of_insertFile t p q' hq' with h2 | h2
        · subst h2
          exact Or.inl hq.symm
        · exact Or.inr (List.mem_append.mpr
            (Or.inl (List.mem_map.mpr ⟨q', h2, hq⟩)))
      · exact Or.inr (List.mem_append.mpr (Or.inr h1))
    · rw [filesOfList] at h
      rw [filesOfList]
      rcases List.mem_append.mp h with h1 | h1
      · exact Or.inr (List.mem_append.mpr (Or.inl h1))
      · rcases mem_filesOfList_of_insertSub rest d p q h1 with h2 | h2
        · exact Or.inl h2
        · exact Or.inr (List.mem_append.mpr (Or.inr h2))
termination_by l _ p _ => (p.length + 1, sizeOf l)
decreasing_by
  all_goals simp_wf
  all_goals first
    | (apply Prod.Lex.right; simp)
    | (apply Prod.Lex.left; omega)

end

mutual

theorem self_mem_filesOf_insertFile :
    ∀ (t : DirTree) (p : List String), ¬ p = [] →
      p ∈ filesOf (insertFile t p)
  | t, [], h => absurd rfl h
  | .mk fs subs, [f], _ => by
    rw [insertFile]
    rw [filesOf]
    apply List.mem_append.mpr
    left
    apply List.mem_map.mpr
    refine ⟨f, ?_, rfl⟩
    split
    · assumption
    · simp
  | .mk fs subs, d :: c :: p, _ => by
    rw [insertFile]
    rw [filesOf]
    apply List.mem_append.mpr
    right
    exact self_mem_filesOfList_insertSub subs d (c :: p) (by simp)
termination_by t p _ => (p.length, sizeOf t)
decreasing_by
  simp_wf
  apply Prod.Lex.right
  simp

theorem self_mem_filesOfList_insertSub :
    ∀ (l : DirList) (d : String) (p : List String), ¬ p = [] →
      d :: p ∈ filesOfList (insertSub l d p)
  | .dnil, d, p, hp => by
    rw [insertSub]
    rw [filesOfList]
    apply List.mem_append.mpr
    left
    exact List.mem_map.mpr
      ⟨p, self_mem_filesOf_insertFile (.mk [] .dnil) p hp, rfl⟩
  | .dcons n t rest, d, p, hp => by
    rw [insertSub]
    split
    · rename_i hnd
      subst hnd
      rw [filesOfList]
      apply List.mem_append.mpr
      left
      exact List.mem_map.mpr ⟨p, self_mem_filesOf_insertFile t p hp, rfl⟩
    · rw [filesOfList]
      apply List.mem_append.mpr
      right
      exact self_mem_filesOfList_insertSub rest d p hp
termination_by l _ p _ => (p.length + 1, sizeOf l)
decreasing_by
  all_goals simp_wf
  all_goals first
    | (apply Prod.Lex.right; simp)
    | (apply Prod.Lex.left; omega)

end

theorem filesOfList_two_le : ∀ (l : DirList), ∀ p ∈ filesOfList l, 2 ≤ p.length
  | .dnil => by
    intro p hp
    rw [filesOfList] at hp
    simp at hp
  | .dcons n t rest => by
    intro p hp
    rw [filesOfList] at hp
    rcases List.mem_append.mp hp with h | h
    · obtain ⟨q', hq', hq⟩ := List.mem_map.mp h
      subst hq
      have h1 := filesOf_ne_nil t q' hq'
      have h2 : 0 < q'.length := List.length_pos.mpr h1
      simp
      omega
    · exact filesOfList_two_le rest p h

theorem mem_filesOf_removeRootFile (t : DirTree) (f : String) (q : List String) :
    q ∈ filesOf (removeRootFile t f) ↔ q ∈ filesOf t ∧ ¬ q = [f] := by
  cases t with
  | mk fs subs =>
    rw [removeRootFile]
    rw [filesOf, filesOf]
    constructor
    · intro h
      rcases List.mem_append.mp h with h1 | h1
      · obtain ⟨g, hg, hgq⟩ := List.mem_map.mp h1
        rw [List.mem_filter] at hg
        refine ⟨List.mem_append.mpr (Or.inl (List.mem_map.mpr ⟨g, hg.1, hgq⟩)), ?_⟩
        intro he
        rw [he] at hgq
        simp at hgq
        subst hgq
        simpa using hg.2
      · refine ⟨List.mem_append.mpr (Or.inr h1), ?_⟩
        intro he
        subst he
        have h2 := filesOfList_two_le subs [f] h1
        simp at h2
    · intro ⟨h, hne⟩
      rcases List.mem_append.mp h with h1 | h1
      · obtain ⟨g, hg, hgq⟩ := List.mem_map.mp h1
        apply List.mem_append.mpr
        left
        apply List.mem_map.mpr
        refine ⟨g, List.mem_filter.mpr ⟨hg, ?_⟩, hgq⟩
        simp
        intro he
        subst he
        exact hne hgq.symm
      · exact List.mem_append.mpr (Or.inr h1)

theorem filter_map_single (q : List String → Bool) :
    ∀ (l : List String),
      (l.map (fun f => [f])).filter q =
        (l.filter (fun f => q [f])).map (fun f => [f])
  | [] => rfl
  | f :: rest => by
    simp only [List.map_cons, List.filter_cons]
    cases hq : q [f] with
    | true => simp [filter_map_single q rest]
    | false => simp [filter_map_single q rest]

theorem filter_map_cons (n : String) (q : List String → Bool) :
    ∀ (l : List (List String)),
      (l.map (fun p => n :: p)).filter q =
        (l.filter (fun p => q (n :: p))).map (fun p => n :: p)
  | [] => rfl
  | p :: rest => by
    simp only [List.map_cons, List.filter_cons]
    cases hq : q (n :: p) with
    | true => simp [filter_map_cons n q rest]
    | false => simp [filter_map_cons n q rest]

mutual

theorem filesOf_cleanupTree :
    ∀ (valid pfx : List String) (t : DirTree),
      filesOf (cleanupTree valid pfx t) =
        (filesOf t).filter (fun p => decide (joinPath (pfx ++ p) ∈ valid))
  | valid, pfx, .mk fs subs => by
    rw [cleanupTree]
    rw [filesOf]
    conv_rhs => rw [filesOf]
    rw [List.filter_append]
    congr 1
    · rw [filter_map_single]
    · exact filesOfList_cleanupList valid pfx subs

theorem filesOfList_cleanupList :
    ∀ (valid pfx : List String) (l : DirList),
      filesOfList (cleanupList valid pfx l) =
        (filesOfList l).filter (fun p => decide (joinPath (pfx ++ p) ∈ valid))
  | valid, pfx, .dnil => by
    rw [cleanupList]
    rw [filesOfList]
    rfl
  | valid, pfx, .dcons n t rest => by
    rw [cleanupList]
    conv_rhs => rw [filesOfList]
    rw [List.filter_append]
    have hpred : ∀ p ∈ filesOf t,
        (fun p => decide (joinPath (pfx ++ p) ∈ valid)) (n :: p) =
          (fun p => decide (joinPath ((pfx ++ [n]) ++ p) ∈ valid)) p := by
      intro p _
      show decide (joinPath (pfx ++ (n :: p)) ∈ valid) =
        decide (joinPath ((pfx ++ [n]) ++ p) ∈ valid)
      have hap : (pfx ++ [n]) ++ p = pfx ++ n :: p := by simp
      rw [hap]
    split
    · rename_i hEmp
      rw [filesOfList_cleanupList valid pfx rest]
      have h1 : filesOf (cleanupTree valid (pfx ++ [n]) t) = [] := by
        revert hEmp
        cases htree : cleanupTree valid (pfx ++ [n]) t with
        | mk fs2 subs2 =>
          intro hEmp
          cases subs2 with
          | dnil =>
            rw [dirEmpty] at hEmp
            rw [filesOf, filesOfList]
            simp at hEmp
            subst hEmp
            simp
          | dcons m t2 r2 =>
            rw [dirEmpty] at hEmp
            simp at hEmp
      rw [filesOf_cleanupTree valid (pfx ++ [n]) t] at h1
      have hnil : (List.map (fun p => n :: p) (filesOf t)).filter
          (fun p => decide (joinPath (pfx ++ p) ∈ valid)) = [] := by
        rw [filter_map_cons]
        apply List.map_eq_nil_iff.mpr
        exact (List.filter_congr' hpred).trans h1
      rw [hnil, List.nil_append]
    · rename_i hEmp
      rw [filesOfList]
      rw [filesOf_cleanupTree valid (pfx ++ [n]) t,
        filesOfList_cleanupList valid pfx rest]
      congr 1
      rw [filter_map_cons]
      congr 1
      exact (List.filter_congr' hpred).symm

end

mutual

/-- A cleaned subtree that is not empty contains at least one file. -/
theorem file_of_cleanupTree_ne :
    ∀ (valid pfx : List String) (t : DirTree),
      dirEmpty (cleanupTree valid pfx t) = false →
      ¬ filesOf (cleanupTree valid pfx t) = []
  | valid, pfx, .mk fs subs => by
    intro hne hcon
    rw [cleanupTree] at hne hcon
    rw [filesOf] at hcon
    rw [List.append_eq_nil] at hcon
    obtain ⟨h1, h2⟩ := hcon
    rw [List.map_eq_nil_iff] at h1
    cases hcl : cleanupList valid pfx subs with
    | dnil =>
      rw [hcl] at hne
      rw [dirEmpty] at hne
      rw [h1] at hne
      simp at hne
    | dcons m t2 r2 =>
      rw [hcl] at h2
      have hfile := cleanupList_head_file valid pfx subs m t2 r2 hcl
      rw [filesOfList] at h2
      rw [List.append_eq_nil] at h2
      exact hfile (List.map_eq_nil_iff.mp h2.1)

/-- Every head entry a `cleanupList` result exposes is a kept,
non-empty cleaned subtree, so it contains a file. -/
theorem cleanupList_head_file :
    ∀ (valid pfx : List String) (l : DirList) (m : String) (t2 : DirTree)
      (r2 : DirList), cleanupList valid pfx l = .dcons m t2 r2 →
      ¬ filesOf t2 = []
  | valid, pfx, .dnil => by
    intro m t2 r2 h
    rw [cleanupList] at h
    exact absurd h (by intro hh; cases hh)
  | valid, pfx, .dcons n t rest => by
    intro m t2 r2 h
    rw [cleanupList] at h
    split at h
    · exact cleanupList_head_file valid pfx rest m t2 r2 h
    · rename_i hEmp
      have hfalse : dirEmpty (cleanupTree valid (pfx ++ [n]) t) = false := by
        cases hd : dirEmpty (cleanupTree valid (pfx ++ [n]) t) with
        | true => exact absurd hd hEmp
        | false => rfl
      injection h with hn ht hr
      rw [← ht]
      exact file_of_cleanupTree_ne valid (pfx ++ [n]) t hfalse

end

mutual

/-- After cleanup, every remaining directory has a file strictly
below it (no empty directories survive, recursively). -/
theorem dirsOf_cleanupTree_file :
    ∀ (valid pfx : List String) (t : DirTree),
      ∀ d ∈ dirsOf (cleanupTree valid pfx t),
        ∃ f ∈ filesOf (cleanupTree valid pfx t), d <+: f ∧ ¬ d = f
  | valid, pfx, .mk fs subs => by
    intro d hd
    rw [cleanupTree] at hd ⊢
    rw [dirsOf] at hd
    rw [filesOf]
    obtain ⟨f, hf, hpre⟩ := dirsOfList_cleanupList_file valid pfx subs d hd
    exact ⟨f, List.mem_append.mpr (Or.inr hf), hpre⟩

theorem dirsOfList_cleanupList_file :
    ∀ (valid pfx : List String) (l : DirList),
      ∀ d ∈ dirsOfList (cleanupList valid pfx l),
        ∃ f ∈ filesOfList (cleanupList valid pfx l), d <+: f ∧ ¬ d = f
  | valid, pfx, .dnil => by
    intro d hd
    rw [cleanupList, dirsOfList] at hd
    simp at hd
  | valid, pfx, .dcons n t rest => by
    intro d hd
    cases hEmp : dirEmpty (cleanupTree valid (pfx ++ [n]) t) with
    | true =>
      rw [cleanupList, hEmp, if_pos rfl] at hd ⊢
      exact dirsOfList_cleanupList_file valid pfx rest d hd
    | false =>
      rw [cleanupList, hEmp, if_neg (by simp)] at hd ⊢
      rw [dirsOfList] at hd
      rw [filesOfList]
      rcases List.mem_cons.mp hd with hd1 | hd1
      · subst hd1
        have hne := file_of_cleanupTree_ne valid (pfx ++ [n]) t hEmp
        obtain ⟨f1, hf1⟩ := List.exists_mem_of_ne_nil _ hne
        refine ⟨n :: f1, ?_, ⟨f1, rfl⟩, ?_⟩
        · exact List.mem_append.mpr
            (Or.inl (List.mem_map.mpr ⟨f1, hf1, rfl⟩))
        · intro he
          have : f1 = [] := by
            have := congrArg List.tail he
            simpa using this
          exact filesOf_ne_nil _ f1 hf1 this
      · rcases List.mem_append.mp hd1 with hd2 | hd2
        · obtain ⟨d', hd', hdd⟩ := List.mem_map.mp hd2
          obtain ⟨f1, hf1, hp1, hne1⟩ :=
            dirsOf_cleanupTree_file valid (pfx ++ [n]) t d' hd'
          refine ⟨n :: f1, ?_, ?_, ?_⟩
          · exact List.mem_append.mpr
              (Or.inl (List.mem_map.mpr ⟨f1, hf1, rfl⟩))
          · obtain ⟨tl, htl⟩ := hp1
            subst hdd
            exact ⟨tl, by rw [List.cons_append, htl]⟩
          · subst hdd
            intro he
            injection he with _ hee
            exact hne1 hee
        · obtain ⟨f1, hf1, hp1⟩ :=
            dirsOfList_cleanupList_file valid pfx rest d hd2
          exact ⟨f1, List.mem_append.mpr (Or.inr hf1), hp1⟩

end

/-! ## Path-string lemmas -/

theorem mk_data (s : String) : String.mk s.data = s := rfl

theorem takeWhile_all_append {p : Char → Bool} :
    ∀ (l1 l2 : List Char), (∀ c ∈ l1, p c = true) →
      (l1 ++ l2).takeWhile p = l1 ++ l2.takeWhile p
  | [], l2, _ => rfl
  | c :: l1, l2, h => by
    simp only [List.cons_append, List.takeWhile_cons, h c (by simp)]
    rw [takeWhile_all_append l1 l2 (fun x hx => h x (by simp [hx]))]
    simp

theorem lastSeg_base_url (n : String) (hn : ∀ c ∈ n.data, ¬ c = '/') :
    lastSeg (BASE_URL ++ n) = n := by
  show String.mk (((BASE_URL ++ n).data.reverse.takeWhile
    (fun c => ¬ c = '/')).reverse) = n
  rw [String.data_append, List.reverse_append]
  rw [takeWhile_all_append _ _ (fun c hc => by
    simp only [List.mem_reverse] at hc
    simpa using hn c hc)]
  have hbase : BASE_URL.data.reverse.takeWhile (fun c => ¬ c = '/') = [] := by
    rfl
  rw [hbase, List.append_nil, List.reverse_reverse]

theorem lastSeg_single (s : String) : joinPath [lastSeg s] = lastSeg s := rfl

theorem partName_length (f : String) (k : Nat) :
    (partName f k).length = f.length + 5 + (pad3 k).length := by
  show (f ++ ".part" ++ pad3 k).length = _
  rw [String.length_append, String.length_append]
  rfl

theorem partName_ne_self (f : String) (k : Nat) : ¬ partName f k = f := by
  intro h
  have hl := congrArg String.length h
  rw [partName_length] at hl
  have h3 := pad3_length k
  omega

/-! ## Fold-insert membership lemmas -/

theorem mem_filesOf_foldl_insert (es : SrcFiles) :
    ∀ (t : DirTree) (q : List String), q ∈ filesOf t →
      q ∈ filesOf (es.foldl (fun a e => insertFile a e.1) t) := by
  induction es with
  | nil => intro t q h; exact h
  | cons e rest ih =>
    intro t q h
    rw [List.foldl_cons]
    exact ih _ q (mem_filesOf_insertFile t e.1 q h)

theorem self_mem_filesOf_foldl_insert (es : SrcFiles) :
    ∀ (t : DirTree) (e : List String × Bytes), e ∈ es → ¬ e.1 = [] →
      e.1 ∈ filesOf (es.foldl (fun a e => insertFile a e.1) t) := by
  induction es with
  | nil => intro t e h; simp at h
  | cons e0 rest ih =>
    intro t e h hne
    rw [List.foldl_cons]
    rcases List.mem_cons.mp h with h1 | h1
    · subst h1
      exact mem_filesOf_foldl_insert rest _ e.1
        (self_mem_filesOf_insertFile t e.1 hne)
    · exact ih _ e h1 hne

theorem pres_filesOf_foldl_insert_single (names : List String) :
    ∀ (t : DirTree) (q : List String), q ∈ filesOf t →
      q ∈ filesOf (names.foldl (fun a m => insertFile a [m]) t) := by
  induction names with
  | nil => intro t q h; exact h
  | cons n0 rest ih =>
    intro t q h
    rw [List.foldl_cons]
    exact ih _ q (mem_filesOf_insertFile t [n0] q h)

theorem mem_filesOf_foldl_insert_single (names : List String) :
    ∀ (t : DirTree) (n : String), n ∈ names →
      [n] ∈ filesOf (names.foldl (fun a m => insertFile a [m]) t) := by
  induction names with
  | nil => intro t n h; simp at h
  | cons n0 rest ih =>
    intro t n h
    rw [List.foldl_cons]
    rcases List.mem_cons.mp h with h1 | h1
    · subst h1
      exact pres_filesOf_foldl_insert_single rest _ [n]
        (self_mem_filesOf_insertFile t [n] (by simp))
    · exact ih _ n h1

/-- The filenames recorded in a manifest: the last path segment of
each executable part URL, and each asset's relative path. -/
def refsOf (m : Manifest) : List String :=
  m.executable.parts.map lastSeg ++ m.assets.map (fun a => a.path)

/-- The normalization `"\r\n".join(x.splitlines())` loses no line
information on stripped text: splitting the normalized text gives the
same lines as splitting the stripped original. -/
theorem stripped_rejoin (txt : String) :
    pySplitlines (crlfJoin (pySplitlines (pyStrip txt))) =
      pySplitlines (pyStrip txt) := by
  rcases pyStrip_lastOk txt with h | ⟨hne, hlast⟩
  · have h0 : pySplitlines "" = [] := by
      show splitlinesAux "".data [] = []
      rw [show "".data = ([] : List Char) from rfl, splitlinesAux]
      simp
    rw [h, h0, show crlfJoin [] = "" from rfl, h0]
  · apply pySplitlines_crlfJoin
    · exact splitlinesAux_no_boundary _ [] (by simp)
    · have hl : ∀ c, (pyStrip txt).data.getLast? = some c →
          pyLineBoundary c = false := by
        intro c hc
        cases hb : pyLineBoundary c with
        | false => rfl
        | true =>
          have := pySpace_of_boundary c hb
          rw [hlast c hc] at this
          exact absurd this (by decide)
      exact (splitlinesAux_lastOk _ [] hl).2

/-! ## Asset-stage, executable-stage and upsert lemmas -/

/-- The asset entries a run records: one per non-excluded source file,
in walk order. -/
def assetEntriesOf (digest : Bytes → String) (src : SrcFiles) : List AssetEntry :=
  (src.filter (fun e => !excludedFile e.1)).map
    (fun e => ⟨joinPath e.1, BASE_URL ++ joinPath e.1, digest e.2⟩)

/-- The normalized paths the asset loop adds to `valid_target_files`. -/
def assetPathsOf (src : SrcFiles) : List String :=
  (src.filter (fun e => !excludedFile e.1)).map (fun e => joinPath e.1)

theorem assetFold (digest : Bytes → String) :
    ∀ (src : SrcFiles) (t : DirTree) (valid : List String)
      (assets : List AssetEntry),
      src.foldl (assetStep digest) (t, valid, assets) =
        ((src.filter (fun e => !excludedFile e.1)).foldl
            (fun a e => insertFile a e.1) t,
          valid ++ assetPathsOf src,
          assets ++ assetEntriesOf digest src)
  | [], t, valid, assets => by
    simp [assetPathsOf, assetEntriesOf]
  | e :: rest, t, valid, assets => by
    rw [List.foldl_cons]
    cases hex : excludedFile e.1 with
    | true =>
      rw [assetStep, if_pos hex]
      rw [assetFold digest rest t valid assets]
      simp only [assetPathsOf, assetEntriesOf, List.filter_cons, hex,
        Bool.not_true]
      simp
    | false =>
      rw [assetStep, if_neg (by rw [hex]; simp)]
      rw [assetFold digest rest]
      simp only [assetPathsOf, assetEntriesOf, List.filter_cons, hex,
        Bool.not_false]
      simp

theorem assetStage_characterization (digest : Bytes → String) (t : DirTree)
    (valid : List String) (src : SrcFiles) :
    assetStage digest t valid src =
      ((src.filter (fun e => !excludedFile e.1)).foldl
          (fun a e => insertFile a e.1) t,
        valid ++ assetPathsOf src, assetEntriesOf digest src) := by
  rw [assetStage, assetFold digest src t valid []]
  simp

theorem upsert_idem (l : SrcFiles) (p : List String) (v : Bytes) :
    upsert (upsert l p v) p v = upsert l p v := by
  unfold upsert
  by_cases h : l.any (fun e => e.1 == p)
  · rw [if_pos h]
    have hany2 : (l.map (fun e => if e.1 == p then (p, v) else e)).any
        (fun e => e.1 == p) = true := by
      obtain ⟨e, he, hep⟩ := List.any_eq_true.mp h
      apply List.any_eq_true.mpr
      refine ⟨(p, v), ?_, by simp⟩
      apply List.mem_map.mpr
      exact ⟨e, he, by rw [if_pos hep]⟩
    rw [if_pos hany2]
    rw [List.map_map]
    apply List.map_congr_left
    intro e _
    simp only [Function.comp_apply]
    by_cases hep : (e.1 == p) = true
    · rw [if_pos hep]
      rw [if_pos (by simp)]
    · rw [if_neg hep, if_neg hep]
  · rw [if_neg h]
    have hany2 : ((l ++ [(p, v)]).any (fun e => e.1 == p)) = true := by
      apply List.any_eq_true.mpr
      exact ⟨(p, v), by simp, by simp⟩
    rw [if_pos hany2]
    rw [List.map_append]
    have hh : ∀ e ∈ l, ¬ (e.1 == p) = true := by
      intro e he hep
      exact h (List.any_eq_true.mpr ⟨e, he, hep⟩)
    congr 1
    · have hmap := List.map_congr_left (l := l)
        (f := fun e => if e.1 == p then (p, v) else e) (g := fun e => e)
        (fun e he => by
          show (if (e.1 == p) = true then (p, v) else e) = e
          rw [if_neg (hh e he)])
      rw [hmap]
      simp
    · simp

theorem main_some (prim : Prim) (now : Nat) (inp : Input) (src : SrcFiles)
    (h : afterCompile prim inp = some src) :
    main prim now inp = runSuccess prim now inp src := by
  rw [main, h]

theorem main_none (prim : Prim) (now : Nat) (inp : Input)
    (h : afterCompile prim inp = none) :
    main prim now inp = ⟨1, inp.oldManifest, none, inp.target, none⟩ := by
  rw [main, h]

theorem runSuccess_eq (prim : Prim) (now : Nat) (inp : Input) (src : SrcFiles) :
    runSuccess prim now inp src =
      ⟨0,
        some ⟨versionOf prim src, now,
          (exeStage prim inp.oldManifest inp.target src).1,
          assetEntriesOf prim.digest src⟩,
        some ⟨versionOf prim src, now,
          (exeStage prim inp.oldManifest inp.target src).1,
          assetEntriesOf prim.digest src⟩,
        cleanupTree
          ((exeStage prim inp.oldManifest inp.target src).2.2 ++
            assetPathsOf src) []
          ((src.filter (fun e => !excludedFile e.1)).foldl
            (fun a e => insertFile a e.1)
            (exeStage prim inp.oldManifest inp.target src).2.1),
        some src⟩ := by
  rw [runSuccess]
  rw [assetStage_characterization]

theorem exeStage_absent (prim : Prim) (oldM : Option Manifest) (t : DirTree)
    (src : SrcFiles) (h : lookupFile src [EXE_NAME] = none) :
    exeStage prim oldM t src = (emptyExeEntry, t, []) := by
  rw [exeStage, h]

theorem exeStage_reuse (prim : Prim) (t : DirTree) (src : SrcFiles)
    (bs : Bytes) (om : Manifest) (hb : lookupFile src [EXE_NAME] = some bs)
    (hh : prim.digest bs = om.executable.hash) :
    exeStage prim (some om) t src =
      (om.executable, t, om.executable.parts.map lastSeg) := by
  simp only [exeStage, hb]
  rw [if_pos hh]

theorem exeStage_fresh_some (prim : Prim) (t : DirTree) (src : SrcFiles)
    (bs : Bytes) (om : Manifest) (hb : lookupFile src [EXE_NAME] = some bs)
    (hh : ¬ prim.digest bs = om.executable.hash) :
    exeStage prim (some om) t src = republishExe prim t (prim.digest bs) bs := by
  simp only [exeStage, hb]
  rw [if_neg hh]

theorem exeStage_fresh_none (prim : Prim) (t : DirTree) (src : SrcFiles)
    (bs : Bytes) (hb : lookupFile src [EXE_NAME] = some bs) :
    exeStage prim none t src = republishExe prim t (prim.digest bs) bs := by
  simp only [exeStage, hb]

theorem republishExe_parts (prim : Prim) (t : DirTree) (cur : String)
    (bs : Bytes) :
    (republishExe prim t cur bs).1 =
      ⟨true, cur, (splitNames CHUNK_SIZE "update.zip" (prim.zipExe bs)).map
        (fun n => BASE_URL ++ n)⟩ ∧
    (republishExe prim t cur bs).2.2 =
      splitNames CHUNK_SIZE "update.zip" (prim.zipExe bs) := by
  constructor <;> rfl

theorem splitLoop_names (csize : Nat) (f : String) (hc : 0 < csize)
    (bs : Bytes) (i : Nat) :
    (splitLoop csize f i bs).map Prod.fst =
      (List.range (splitLoop csize f i bs).length).map (fun k => partName f (i + k)) := by
  by_cases hb : bs = []
  · subst hb
    rw [splitLoop_nil]
    rfl
  · rw [splitLoop_cons csize f i bs (by omega) hb]
    simp only [List.map_cons, List.length_cons]
    rw [splitLoop_names csize f hc (bs.drop csize) (i + 1)]
    rw [List.range_succ_eq_map]
    simp only [List.map_cons, List.map_map]
    congr 1
    apply List.map_congr_left
    intro k _
    simp only [Function.comp_apply]
    congr 1
    omega
termination_by bs.length
decreasing_by
  have : 0 < bs.length := List.length_pos.mpr hb
  simp only [List.length_drop]
  omega

theorem splitNames_eq (csize : Nat) (f : String) (hc : 0 < csize) (bs : Bytes) :
    splitNames csize f bs =
      (List.range (split_file csize f bs).length).map (fun k => partName f k) := by
  rw [splitNames, split_file, splitLoop_names csize f hc bs 0]
  apply List.map_congr_left
  intro k _
  rw [Nat.zero_add]

theorem splitNames_nodup (csize : Nat) (f : String) (hc : 0 < csize)
    (bs : Bytes) : (splitNames csize f bs).Nodup := by
  rw [splitNames_eq csize f hc bs]
  apply List.Nodup.map
  · intro a b h
    exact partName_injective f h
  · exact List.nodup_range _

theorem splitNames_partName (csize : Nat) (f : String) (hc : 0 < csize)
    (bs : Bytes) : ∀ n ∈ splitNames csize f bs, ∃ k, n = partName f k := by
  rw [splitNames_eq csize f hc bs]
  intro n hn
  obtain ⟨k, _, hk⟩ := List.mem_map.mp hn
  exact ⟨k, hk.symm⟩


/-! # Claims -/

/-! ## C4 — chunk round-trip, count and naming -/

/-- The naming scheme as the claim states it: part `i` is named
`<basename>.part<NNN>` where `NNN` is the index zero-padded to
exactly three digits. -/
def threeDigitNaming (base : String) (ps : List (String × Bytes)) : Prop :=
  ∀ i, i < ps.length →
    (ps.getD i ("", [])).1 = partName base i ∧ (pad3 i).length = 3

/-- The C4 claim as stated, at one input: round-trip, ceil count, and
exactly-three-digit indices. -/
def c4ClaimAt (csize : Nat) (base : String) (bs : Bytes) : Prop :=
  ((split_file csize base bs).map Prod.snd).flatten = bs ∧
  (split_file csize base bs).length = (bs.length + csize - 1) / csize ∧
  threeDigitNaming base (split_file csize base bs)

/-- C4, counterexample: with chunk size 1 and a 1001-byte file,
`split_file` produces part index 1000, which Python's `{idx:03d}`
renders with four digits, so the "zero-padded 3-digit index" clause
fails as a universal statement. -/
theorem claim_C4_counterexample :
    ¬ c4ClaimAt 1 "update.zip" (List.replicate 1001 0) := by
  intro hcl
  obtain ⟨_, hlen, hnames⟩ := hcl
  have hlen2 : (split_file 1 "update.zip" (List.replicate 1001 0)).length = 1001 := by
    rw [hlen, List.length_replicate]
  have h2 := (hnames 1000 (by omega)).2
  have h3 := pad3_length_of_ge 1000 (by omega)
  omega

/-- C4 (amended): for every positive chunk size, concatenating the
parts in index order reproduces the source bytes, the part count is
`ceil(size / chunkSize)` (0 parts for an empty file), and parts are
named `<basename>.part<NNN>` with the index zero-padded to at least
three digits — exactly three while the index is below 1000 — starting
at 000 and increasing by 1. -/
theorem claim_C4 (csize : Nat) (hc : 0 < csize) (base : String) (bs : Bytes) :
    ((split_file csize base bs).map Prod.snd).flatten = bs ∧
    (split_file csize base bs).length = (bs.length + csize - 1) / csize ∧
    (split_file csize base bs).map Prod.fst =
      (List.range ((bs.length + csize - 1) / csize)).map
        (fun k => partName base k) ∧
    (∀ k, 3 ≤ (pad3 k).length) ∧ (∀ k, k < 1000 → (pad3 k).length = 3) := by
  have hlen := splitLoop_length csize base hc bs 0
  refine ⟨splitLoop_flatten csize base hc bs 0, hlen, ?_, ?_, ?_⟩
  · have := splitNames_eq csize base hc bs
    rw [splitNames] at this
    rw [split_file] at this ⊢
    rw [this, hlen]
  · intro k
    have := pad3_length k
    omega
  · exact fun k hk => pad3_length_of_lt k hk

/-- C4, witness. -/
theorem claim_C4_witness :
    0 < 2 ∧
    (((split_file 2 "f" [7, 8, 9]).map Prod.snd).flatten = [7, 8, 9] ∧
    (split_file 2 "f" [7, 8, 9]).length = (([7, 8, 9] : Bytes).length + 2 - 1) / 2 ∧
    (split_file 2 "f" [7, 8, 9]).map Prod.fst =
      (List.range ((([7, 8, 9] : Bytes).length + 2 - 1) / 2)).map
        (fun k => partName "f" k) ∧
    (∀ k, 3 ≤ (pad3 k).length) ∧ (∀ k, k < 1000 → (pad3 k).length = 3)) :=
  ⟨by decide, claim_C4 2 (by decide) "f" [7, 8, 9]⟩

/-! ## C7 — rule encoding round-trip -/

/-- Items with a truthy `Id` are compiled (in place, in order). -/
theorem compile_rules_mem (texts : String → Option String) (rid : String)
    (hrid : ¬ rid = "") :
    ∀ (items : List RuleItem) (it : RuleItem), it ∈ items →
      it.Id = some rid → compileItem texts rid it ∈ compile_rules texts items := by
  intro items
  induction items with
  | nil => intro it h; simp at h
  | cons it0 rest ih =>
    intro it hmem hid
    rcases List.mem_cons.mp hmem with h1 | h1
    · subst h1
      simp only [compile_rules, hid]
      rw [if_neg hrid]
      exact List.mem_cons_self _ _
    · rw [compile_rules]
      split
      · exact ih it h1 hid
      · split
        · exact ih it h1 hid
        · exact List.mem_cons_of_mem _ (ih it h1 hid)

/-- C7: for a rule item with a truthy `Id` whose host-list text file
exists and is non-empty, base64-decoding the compiled `Hosts` field
yields exactly the UTF-8 bytes of the whitespace-stripped text with
line endings normalized to CRLF; splitting that normalized text into
lines recovers the lines of the stripped original, so normalizing
line endings after decoding recovers the trimmed host-list text.  The
compiled item appears in the `compile_rules` output whenever the item
is in the input list. -/
theorem claim_C7 (texts : String → Option String) (it : RuleItem)
    (rid : String) (txt : String) (hid : it.Id = some rid)
    (hrid : ¬ rid = "") (htxt : texts rid = some txt) (hne : ¬ txt = "") :
    ∃ h, (compileItem texts rid it).Hosts = some h ∧
      b64Decode h =
        some (utf8Encode (crlfJoin (pySplitlines (pyStrip txt)))) ∧
      pySplitlines (crlfJoin (pySplitlines (pyStrip txt))) =
        pySplitlines (pyStrip txt) ∧
      ∀ items, it ∈ items →
        compileItem texts rid it ∈ compile_rules texts items := by
  have hmem := fun items hin =>
    compile_rules_mem texts rid hrid items it hin hid
  by_cases hstrip : pyStrip txt = ""
  · refine ⟨"", ?_, ?_, stripped_rejoin txt, hmem⟩
    · rw [compileItem, htxt]
      simp [hstrip]
    · have hsplit : pySplitlines (pyStrip txt) = [] := by
        rw [hstrip]
        show splitlinesAux "".data [] = []
        rw [show "".data = ([] : List Char) from rfl, splitlinesAux]
        simp
      rw [hsplit]
      rfl
  · refine ⟨b64Encode (utf8Encode (crlfJoin (pySplitlines (pyStrip txt)))),
      ?_, ?_, stripped_rejoin txt, hmem⟩
    · rw [compileItem, htxt]
      simp [hstrip]
    · exact b64Decode_b64Encode _ (utf8Encode_lt _)

/-- C7, witness: the single rule `r1` with host list `" x\ny "`. -/
theorem claim_C7_witness :
    ∃ h, (compileItem (fun s => if s = "r1" then some " x\ny " else none) "r1"
        ⟨some "r1", none, none, []⟩).Hosts = some h ∧
      b64Decode h =
        some (utf8Encode (crlfJoin (pySplitlines (pyStrip " x\ny ")))) ∧
      pySplitlines (crlfJoin (pySplitlines (pyStrip " x\ny "))) =
        pySplitlines (pyStrip " x\ny ") ∧
      ∀ items, (⟨some "r1", none, none, []⟩ : RuleItem) ∈ items →
        compileItem (fun s => if s = "r1" then some " x\ny " else none) "r1"
          ⟨some "r1", none, none, []⟩ ∈
          compile_rules (fun s => if s = "r1" then some " x\ny " else none)
            items :=
  claim_C7 (fun s => if s = "r1" then some " x\ny " else none)
    ⟨some "r1", none, none, []⟩ "r1" " x\ny " rfl (by decide) rfl (by decide)

/-! ## C8 — rule compiler error handling and pass-through -/

/-- C8: `compile_rules` keeps exactly the items with a present,
non-empty `Id`, in input order, each transformed by the loop body;
a missing host-list file yields `Hosts = ""` (the item still
appears); `Status` is the input `Status` or 0 when absent; `Id` and
all other fields pass through unchanged. -/
theorem claim_C8 (texts : String → Option String) (items : List RuleItem) :
    compile_rules texts items =
      (items.filter (fun it => idOk it.Id)).map
        (fun it => compileItem texts (it.Id.getD "") it) ∧
    (∀ it rid, it.Id = some rid → texts rid = none →
      (compileItem texts rid it).Hosts = some "") ∧
    (∀ it rid, (compileItem texts rid it).Status = some (it.Status.getD 0) ∧
      (compileItem texts rid it).Id = it.Id ∧
      (compileItem texts rid it).extra = it.extra) := by
  refine ⟨?_, ?_, ?_⟩
  · induction items with
    | nil => rfl
    | cons it0 rest ih =>
      rw [compile_rules]
      split
      · rename_i heq
        rw [List.filter_cons]
        rw [show idOk it0.Id = false by rw [heq]; rfl]
        simpa using ih
      · rename_i r0 heq
        by_cases hr0 : r0 = ""
        · rw [if_pos hr0]
          rw [List.filter_cons]
          rw [show idOk it0.Id = false by rw [heq, hr0]; rfl]
          simpa using ih
        · rw [if_neg hr0]
          rw [List.filter_cons]
          rw [show idOk it0.Id = true by
            rw [heq]
            simpa [idOk] using hr0]
          simp only [if_true]
          rw [List.map_cons]
          rw [show it0.Id.getD "" = r0 by rw [heq]; rfl]
          rw [ih]
  · intro it rid _ htxt
    simp [compileItem, htxt]
  · intro it rid
    exact ⟨rfl, rfl, rfl⟩

/-- C8, witness: a list with a valid item, an item with no `Id`, an
item with an empty `Id`, and a valid item with no host file. -/
theorem claim_C8_witness :
    compile_rules (fun _ => none)
        [⟨some "a", some 2, none, [("K", "v")]⟩, ⟨none, none, none, []⟩,
         ⟨some "", none, none, []⟩, ⟨some "b", none, none, []⟩] =
      ([⟨some "a", some 2, none, [("K", "v")]⟩, ⟨none, none, none, []⟩,
         ⟨some "", none, none, []⟩,
         ⟨some "b", none, none, []⟩].filter (fun it => idOk it.Id)).map
        (fun it => compileItem (fun _ => none) (it.Id.getD "") it) ∧
    (compileItem (fun _ => none) "a"
        ⟨some "a", some 2, none, [("K", "v")]⟩).Hosts = some "" ∧
    (compileItem (fun _ => none) "a"
        ⟨some "a", some 2, none, [("K", "v")]⟩).Status = some 2 ∧
    (compileItem (fun _ => none) "a"
        ⟨some "a", some 2, none, [("K", "v")]⟩).extra = [("K", "v")] := by
  have h := claim_C8 (fun _ => none)
    [⟨some "a", some 2, none, [("K", "v")]⟩, ⟨none, none, none, []⟩,
     ⟨some "", none, none, []⟩, ⟨some "b", none, none, []⟩]
  refine ⟨h.1, h.2.1 _ "a" rfl rfl, ?_, ?_⟩
  · exact (h.2.2 ⟨some "a", some 2, none, [("K", "v")]⟩ "a").1
  · exact (h.2.2 ⟨some "a", some 2, none, [("K", "v")]⟩ "a").2.2

/-! ## C10 — exclusion is by bare filename, at any depth -/

/-- C10: the asset loop records exactly the source files whose bare
filename differs from both `EXE_NAME` and `VERSION_FILE`: the asset
list, the valid-path set and the copied tree are each characterized
by that filter; every asset entry stems from a non-excluded file;
every non-excluded file is recorded; and exclusion tests nothing but
the bare last path component, so it applies at any depth. -/
theorem claim_C10 (digest : Bytes → String) (t : DirTree)
    (valid : List String) (src : SrcFiles) :
    (assetStage digest t valid src).2.2 = assetEntriesOf digest src ∧
    (assetStage digest t valid src).2.1 = valid ++ assetPathsOf src ∧
    (assetStage digest t valid src).1 =
      (src.filter (fun e => !excludedFile e.1)).foldl
        (fun a e => insertFile a e.1) t ∧
    (∀ a ∈ assetEntriesOf digest src, ∃ e ∈ src, excludedFile e.1 = false ∧
      a.path = joinPath e.1 ∧ a.hash = digest e.2) ∧
    (∀ e ∈ src, excludedFile e.1 = false → joinPath e.1 ∈ assetPathsOf src) ∧
    (∀ p : List String,
      (lastName p = EXE_NAME ∨ lastName p = VERSION_FILE) ↔
        excludedFile p = true) := by
  rw [assetStage_characterization]
  refine ⟨rfl, rfl, rfl, ?_, ?_, ?_⟩
  · intro a ha
    rw [assetEntriesOf] at ha
    obtain ⟨e, he, hea⟩ := List.mem_map.mp ha
    rw [List.mem_filter] at he
    refine ⟨e, he.1, by simpa using he.2, ?_, ?_⟩
    · rw [← hea]
    · rw [← hea]
  · intro e he hex
    rw [assetPathsOf]
    apply List.mem_map.mpr
    refine ⟨e, ?_, rfl⟩
    rw [List.mem_filter]
    exact ⟨he, by simp [hex]⟩
  · intro p
    simp [excludedFile]

/-- C10, witness: an executable copy nested in a subdirectory is
excluded; a sibling ordinary file is recorded. -/
theorem claim_C10_witness :
    (assetStage (fun _ => "h") (.mk [] .dnil) []
        [(["sub", EXE_NAME], [1]), (["sub", "a.txt"], [2]),
         ([VERSION_FILE], [3])]).2.2 =
      assetEntriesOf (fun _ => "h")
        [(["sub", EXE_NAME], [1]), (["sub", "a.txt"], [2]),
         ([VERSION_FILE], [3])] ∧
    joinPath ["sub", "a.txt"] ∈ assetPathsOf
      [(["sub", EXE_NAME], [1]), (["sub", "a.txt"], [2]),
       ([VERSION_FILE], [3])] ∧
    excludedFile ["sub", EXE_NAME] = true := by
  have h := claim_C10 (fun _ => "h") (.mk [] .dnil) []
    [(["sub", EXE_NAME], [1]), (["sub", "a.txt"], [2]), ([VERSION_FILE], [3])]
  refine ⟨h.1, ?_, ?_⟩
  · exact h.2.2.2.2.1 (["sub", "a.txt"], [2]) (by simp) (by decide)
  · exact (h.2.2.2.2.2 ["sub", EXE_NAME]).mp (by decide)

/-! ## C5 — orphan cleanup -/

/-- C5: after the cleanup pass on the target tree, the surviving
files are exactly those whose slash-normalized path is in the
accumulated target file set (orphans are deleted, valid files
remain), and every surviving directory has a file strictly below it —
every directory left empty by the removal, recursively, is gone. -/
theorem claim_C5 (valid : List String) (t : DirTree) :
    filesOf (cleanupTree valid [] t) =
      (filesOf t).filter (fun p => decide (joinPath p ∈ valid)) ∧
    ∀ d ∈ dirsOf (cleanupTree valid [] t),
      ∃ f ∈ filesOf (cleanupTree valid [] t), d <+: f ∧ ¬ d = f := by
  constructor
  · rw [filesOf_cleanupTree valid [] t]
    apply List.filter_congr'
    intro p _
    rw [List.nil_append]
  · exact dirsOf_cleanupTree_file valid [] t

/-- C5, witness: a tree with an orphan file, an orphan-only
subdirectory and an empty subdirectory; `sub` survives with its valid
file, the rest is removed. -/
theorem claim_C5_witness :
    filesOf (cleanupTree ["keep.txt", "sub/a.txt"] []
        (.mk ["keep.txt", "junk.txt"]
          (.dcons "sub" (.mk ["a.txt"] (.dcons "emptyd" (.mk [] .dnil) .dnil))
            (.dcons "junkd" (.mk ["b.txt"] .dnil) .dnil)))) =
      (filesOf (.mk ["keep.txt", "junk.txt"]
          (.dcons "sub" (.mk ["a.txt"] (.dcons "emptyd" (.mk [] .dnil) .dnil))
            (.dcons "junkd" (.mk ["b.txt"] .dnil) .dnil)))).filter
        (fun p => decide (joinPath p ∈ ["keep.txt", "sub/a.txt"])) ∧
    (∃ f ∈ filesOf (cleanupTree ["keep.txt", "sub/a.txt"] []
        (.mk ["keep.txt", "junk.txt"]
          (.dcons "sub" (.mk ["a.txt"] (.dcons "emptyd" (.mk [] .dnil) .dnil))
            (.dcons "junkd" (.mk ["b.txt"] .dnil) .dnil)))),
      ["sub"] <+: f ∧ ¬ ["sub"] = f) := by
  refine ⟨(claim_C5 _ _).1, (claim_C5 _ _).2 ["sub"] ?_⟩
  simp [cleanupTree, cleanupList, dirsOf, dirsOfList, dirEmpty, filesOf,
    filesOfList, joinPath]

/-! ## C6 — missing source root -/

/-- Deterministic demonstration primitives for concrete runs. -/
def demoPrim : Prim where
  digest := fun bs => String.mk ('h' :: bs.map (fun b => Char.ofNat (65 + b % 26)))
  zipExe := fun bs => 80 :: 75 :: bs
  encRules := fun l => 123 :: [l.length]
  decText := fun bs => String.mk (bs.map Char.ofNat)

/-- A run state with the source root absent but the rules meta file
present. -/
def c6Input : Input where
  srcFiles := none
  rulesMeta := some []
  ruleTexts := fun _ => none
  oldManifest := none
  target := .mk [] .dnil

/-- C6, counterexample: with the source root absent but a rules meta
file present, `compile_rules` (which runs first) creates
`SOURCE_DIR/Data` via `os.makedirs`, so the existence check on the
source root passes and the run completes and writes a manifest
instead of exiting non-zero. -/
theorem claim_C6_counterexample :
    c6Input.srcFiles = none ∧
    (main demoPrim 0 c6Input).exitCode = 0 ∧
    ¬ (main demoPrim 0 c6Input).newManifest = none := by
  refine ⟨rfl, ?_, ?_⟩
  · simp [main, afterCompile, c6Input, compile_rules, upsert, runSuccess]
  · simp [main, afterCompile, c6Input, compile_rules, upsert, runSuccess]

/-- C6 (amended): when the source root is absent and rule compilation
does not create it (the rules meta file is absent, so the compile
step writes nothing), the run exits with status 1 before any manifest
write and the previously persisted manifest is untouched.  When the
rules meta file exists, `compile_rules` creates the source root's
`Data` subdirectory first and the run proceeds instead. -/
theorem claim_C6 (prim : Prim) (now : Nat) (inp : Input)
    (hsrc : inp.srcFiles = none) (hmeta : inp.rulesMeta = none) :
    (main prim now inp).exitCode = 1 ∧
    (main prim now inp).newManifest = none ∧
    (main prim now inp).persisted = inp.oldManifest := by
  have h : afterCompile prim inp = none := by
    rw [afterCompile, hmeta, hsrc]
  rw [main_none prim now inp h]
  exact ⟨rfl, rfl, rfl⟩

/-- C6, witness. -/
theorem claim_C6_witness :
    (main demoPrim 0
        ⟨none, none, fun _ => none, none, .mk [] .dnil⟩).exitCode = 1 ∧
    (main demoPrim 0
        ⟨none, none, fun _ => none, none, .mk [] .dnil⟩).newManifest = none ∧
    (main demoPrim 0
        ⟨none, none, fun _ => none, none, .mk [] .dnil⟩).persisted =
      (⟨none, none, fun _ => none, none, .mk [] .dnil⟩ : Input).oldManifest :=
  claim_C6 demoPrim 0 ⟨none, none, fun _ => none, none, .mk [] .dnil⟩ rfl rfl

/-! ## C9 — missing or corrupt previous manifest -/

/-- C9: when the previous manifest is absent or unparseable (empty
prior state), the run continues to completion and writes a fresh
manifest; in particular, when a source executable exists the
comparison against the missing stored digest fails, forcing the
Republished branch: `update_required = true`, the new digest, and
freshly built part URLs. -/
theorem claim_C9 (prim : Prim) (now : Nat) (inp : Input) (src : SrcFiles)
    (hold : inp.oldManifest = none) (hsrc : afterCompile prim inp = some src) :
    (main prim now inp).exitCode = 0 ∧
    ∃ nm, (main prim now inp).newManifest = some nm ∧
      (main prim now inp).persisted = some nm ∧
      ∀ bs, lookupFile src [EXE_NAME] = some bs →
        nm.executable.update_required = true ∧
        nm.executable.hash = prim.digest bs ∧
        nm.executable.parts =
          (splitNames CHUNK_SIZE "update.zip" (prim.zipExe bs)).map
            (fun n => BASE_URL ++ n) := by
  rw [main_some prim now inp src hsrc, runSuccess_eq]
  refine ⟨rfl, _, rfl, rfl, ?_⟩
  intro bs hbs
  rw [hold, exeStage_fresh_none prim inp.target src bs hbs]
  rw [(republishExe_parts prim inp.target (prim.digest bs) bs).1]
  exact ⟨rfl, rfl, rfl⟩

/-- C9, witness: no previous manifest, a one-byte executable. -/
theorem claim_C9_witness :
    (main demoPrim 0
        ⟨some [([EXE_NAME], [1])], none, fun _ => none, none,
          .mk [] .dnil⟩).exitCode = 0 ∧
    ∃ nm, (main demoPrim 0
        ⟨some [([EXE_NAME], [1])], none, fun _ => none, none,
          .mk [] .dnil⟩).newManifest = some nm ∧
      (main demoPrim 0
        ⟨some [([EXE_NAME], [1])], none, fun _ => none, none,
          .mk [] .dnil⟩).persisted = some nm ∧
      ∀ bs, lookupFile [([EXE_NAME], [1])] [EXE_NAME] = some bs →
        nm.executable.update_required = true ∧
        nm.executable.hash = demoPrim.digest bs ∧
        nm.executable.parts =
          (splitNames CHUNK_SIZE "update.zip" (demoPrim.zipExe bs)).map
            (fun n => BASE_URL ++ n) :=
  claim_C9 demoPrim 0
    ⟨some [([EXE_NAME], [1])], none, fun _ => none, none, .mk [] .dnil⟩
    [([EXE_NAME], [1])] rfl rfl

/-! ## C1 — executable change detection -/

/-- C1: when the source executable exists and its digest differs from
the digest stored in the previous manifest's executable entry, the
new manifest's executable entry has `update_required = true`, the new
digest, and a fresh list of part URLs built from the newly produced
chunk filenames; when the digests are equal, the previous manifest's
executable entry is copied into the new manifest verbatim; when the
source executable is absent, the entry is
`{update_required: false, hash: "", parts: []}`. -/
theorem claim_C1 (prim : Prim) (now : Nat) (inp : Input) (src : SrcFiles)
    (hsrc : afterCompile prim inp = some src) :
    ∃ nm, (main prim now inp).newManifest = some nm ∧
      (∀ bs, lookupFile src [EXE_NAME] = some bs →
        ∀ om, inp.oldManifest = some om →
          (¬ prim.digest bs = om.executable.hash →
            nm.executable =
              ⟨true, prim.digest bs,
                (splitNames CHUNK_SIZE "update.zip" (prim.zipExe bs)).map
                  (fun n => BASE_URL ++ n)⟩) ∧
          (prim.digest bs = om.executable.hash →
            nm.executable = om.executable)) ∧
      (lookupFile src [EXE_NAME] = none → nm.executable = emptyExeEntry) := by
  rw [main_some prim now inp src hsrc, runSuccess_eq]
  refine ⟨_, rfl, ?_, ?_⟩
  · intro bs hbs om hom
    constructor
    · intro hne
      show (exeStage prim inp.oldManifest inp.target src).1 = _
      rw [hom, exeStage_fresh_some prim inp.target src bs om hbs hne]
      exact (republishExe_parts prim inp.target (prim.digest bs) bs).1
    · intro heq
      show (exeStage prim inp.oldManifest inp.target src).1 = _
      rw [hom, exeStage_reuse prim inp.target src bs om hbs heq]
  · intro hnone
    show (exeStage prim inp.oldManifest inp.target src).1 = _
    rw [exeStage_absent prim inp.oldManifest inp.target src hnone]

/-- C1, witness: a one-byte executable against a stored digest `"x"`
that differs from the current digest, forcing the Republished entry. -/
theorem claim_C1_witness :
    ∃ nm, (main demoPrim 0
        ⟨some [([EXE_NAME], [1])], none, fun _ => none,
          some ⟨"V1", 0, ⟨false, "x", []⟩, []⟩, .mk [] .dnil⟩).newManifest =
      some nm ∧
      nm.executable =
        ⟨true, demoPrim.digest [1],
          (splitNames CHUNK_SIZE "update.zip" (demoPrim.zipExe [1])).map
            (fun n => BASE_URL ++ n)⟩ := by
  obtain ⟨nm, h1, h2, _⟩ := claim_C1 demoPrim 0
    ⟨some [([EXE_NAME], [1])], none, fun _ => none,
      some ⟨"V1", 0, ⟨false, "x", []⟩, []⟩, .mk [] .dnil⟩
    [([EXE_NAME], [1])] rfl
  exact ⟨nm, h1, (h2 [1] rfl ⟨"V1", 0, ⟨false, "x", []⟩, []⟩ rfl).1 (by decide)⟩

/-! ## C2 — idempotence up to timestamp -/

/-- Re-running rule compilation on the post-run source tree rewrites
`Data/ProxyRules.json` with identical content, leaving the tree
unchanged. -/
theorem afterCompile_again (prim : Prim) (inp : Input) (src : SrcFiles)
    (om2 : Option Manifest) (t2 : DirTree)
    (h : afterCompile prim inp = some src) :
    afterCompile prim
      ⟨some src, inp.rulesMeta, inp.ruleTexts, om2, t2⟩ = some src := by
  cases hmeta : inp.rulesMeta with
  | none =>
    simp only [afterCompile, hmeta]
  | some meta =>
    rw [afterCompile, hmeta] at h
    simp only [afterCompile, hmeta]
    injection h with h2
    rw [← h2]
    rw [show (some (upsert (inp.srcFiles.getD []) ["Data", FINAL_RULES_NAME]
        (prim.encRules (compile_rules inp.ruleTexts meta)))).getD [] =
      upsert (inp.srcFiles.getD []) ["Data", FINAL_RULES_NAME]
        (prim.encRules (compile_rules inp.ruleTexts meta)) from rfl]
    rw [upsert_idem]

/-- C2: running the publish step a second time — with the source tree
as the first run left it, the first run's manifest as the previous
manifest, and the first run's target tree — produces a manifest equal
to the first run's except for the timestamp field (version,
executable entry including `update_required` and part URLs, and the
full asset list are reproduced exactly). -/
theorem claim_C2 (prim : Prim) (now1 now2 : Nat) (inp : Input) (m1 : Manifest)
    (h1 : (main prim now1 inp).newManifest = some m1) :
    ∃ m2,
      (main prim now2
        ⟨(main prim now1 inp).srcAfter, inp.rulesMeta, inp.ruleTexts,
          (main prim now1 inp).persisted,
          (main prim now1 inp).target⟩).newManifest = some m2 ∧
      m2 = {m1 with timestamp := now2} := by
  cases hafter : afterCompile prim inp with
  | none =>
    rw [main_none prim now1 inp hafter] at h1
    exact Option.noConfusion h1
  | some src =>
    rw [main_some prim now1 inp src hafter, runSuccess_eq] at h1
    have hm1 : m1 = ⟨versionOf prim src, now1,
        (exeStage prim inp.oldManifest inp.target src).1,
        assetEntriesOf prim.digest src⟩ := by
      injection h1 with h1a
      exact h1a.symm
    rw [main_some prim now1 inp src hafter, runSuccess_eq]
    show ∃ m2, (main prim now2
        ⟨some src, inp.rulesMeta, inp.ruleTexts,
          some ⟨versionOf prim src, now1,
            (exeStage prim inp.oldManifest inp.target src).1,
            assetEntriesOf prim.digest src⟩, _⟩).newManifest = some m2 ∧
      m2 = {m1 with timestamp := now2}
    rw [← hm1]
    have hafter2 := afterCompile_again prim inp src (some m1)
      (cleanupTree
        ((exeStage prim inp.oldManifest inp.target src).2.2 ++
          assetPathsOf src) []
        ((src.filter (fun e => !excludedFile e.1)).foldl
          (fun a e => insertFile a e.1)
          (exeStage prim inp.oldManifest inp.target src).2.1)) hafter
    rw [main_some prim now2 _ src hafter2, runSuccess_eq]
    refine ⟨_, rfl, ?_⟩
    have hexe : (exeStage prim (some m1)
        (cleanupTree
          ((exeStage prim inp.oldManifest inp.target src).2.2 ++
            assetPathsOf src) []
          ((src.filter (fun e => !excludedFile e.1)).foldl
            (fun a e => insertFile a e.1)
            (exeStage prim inp.oldManifest inp.target src).2.1)) src).1 =
        (exeStage prim inp.oldManifest inp.target src).1 := by
      cases hbs : lookupFile src [EXE_NAME] with
      | none =>
        rw [exeStage_absent prim (some m1) _ src hbs,
          exeStage_absent prim inp.oldManifest inp.target src hbs]
      | some bs =>
        have hhash : prim.digest bs = m1.executable.hash := by
          rw [hm1]
          show prim.digest bs =
            (exeStage prim inp.oldManifest inp.target src).1.hash
          cases hom : inp.oldManifest with
          | none =>
            rw [exeStage_fresh_none prim inp.target src bs hbs]
            rfl
          | some om =>
            by_cases he : prim.digest bs = om.executable.hash
            · rw [exeStage_reuse prim inp.target src bs om hbs he]
              exact he
            · rw [exeStage_fresh_some prim inp.target src bs om hbs he]
              rfl
        rw [exeStage_reuse prim _ src bs m1 hbs hhash]
        rw [hm1]
    rw [hexe, hm1]

/-- A source tree exercising both the executable and asset paths for
the idempotence witness. -/
def c2Inp : Input :=
  ⟨some [([EXE_NAME], [1, 2]), ([VERSION_FILE], [86, 50]),
      (["Data", "a.png"], [9])],
    none, fun _ => none, none, .mk ["stale.txt"] .dnil⟩

/-- C2, witness: the second run reproduces the first run's manifest
with only the timestamp changed. -/
theorem claim_C2_witness :
    (main demoPrim 5 c2Inp).newManifest =
      some ⟨"V2", 5, ⟨true, "hBC",
        ["https://snib.racpast.com/files/update.zip.part000"]⟩,
        [⟨"Data/a.png", "https://snib.racpast.com/files/Data/a.png", "hJ"⟩]⟩ ∧
    ∃ m2,
      (main demoPrim 99
        ⟨(main demoPrim 5 c2Inp).srcAfter, c2Inp.rulesMeta, c2Inp.ruleTexts,
          (main demoPrim 5 c2Inp).persisted,
          (main demoPrim 5 c2Inp).target⟩).newManifest = some m2 ∧
      m2 = {(⟨"V2", 5, ⟨true, "hBC",
        ["https://snib.racpast.com/files/update.zip.part000"]⟩,
        [⟨"Data/a.png", "https://snib.racpast.com/files/Data/a.png",
          "hJ"⟩]⟩ : Manifest) with timestamp := 99} := by
  have h1 : (main demoPrim 5 c2Inp).newManifest =
      some ⟨"V2", 5, ⟨true, "hBC",
        ["https://snib.racpast.com/files/update.zip.part000"]⟩,
        [⟨"Data/a.png", "https://snib.racpast.com/files/Data/a.png",
          "hJ"⟩]⟩ := by
    simp [main, afterCompile, c2Inp, runSuccess, versionOf, lookupFile,
      EXE_NAME, VERSION_FILE, pyStrip, pyStripChars, pySpace, demoPrim,
      exeStage, republishExe, split_file, splitLoop, partName, pad3,
      decDigits, CHUNK_SIZE, BASE_URL, assetStage, assetStep, excludedFile,
      lastName, joinPath, insertFile, insertSub, cleanupTree, cleanupList,
      dirEmpty, removeRootFile]
  exact ⟨h1, claim_C2 demoPrim 5 99 c2Inp _ h1⟩

/-! ## C3 — manifest/disk correspondence -/

theorem assetEntriesOf_paths (digest : Bytes → String) (src : SrcFiles) :
    (assetEntriesOf digest src).map (fun a => a.path) = assetPathsOf src := by
  rw [assetEntriesOf, assetPathsOf, List.map_map]
  rfl

/-- The disk/manifest correspondence, abstracted over the outcome of
the executable stage: if every recorded part filename is on disk
after that stage, part names are mutually distinct and disjoint from
the asset paths, and asset paths are distinct, then after asset sync
and cleanup every disk file is referenced exactly once and every
referenced filename is on disk. -/
theorem c3_core (exEntry : ExecutableEntry) (t1 : DirTree)
    (valid1 : List String) (src : SrcFiles)
    (hv : exEntry.parts.map lastSeg = valid1)
    (hdisk : ∀ n ∈ valid1, [n] ∈ filesOf t1)
    (hnd1 : valid1.Nodup)
    (hnd2 : (assetPathsOf src).Nodup)
    (hdj : ∀ n ∈ valid1, ¬ n ∈ assetPathsOf src)
    (hne : ∀ e ∈ src, ¬ e.1 = []) :
    (∀ q ∈ filesOf (cleanupTree (valid1 ++ assetPathsOf src) []
        ((src.filter (fun e => !excludedFile e.1)).foldl
          (fun a e => insertFile a e.1) t1)),
      (exEntry.parts.map lastSeg ++ assetPathsOf src).count (joinPath q) = 1) ∧
    (∀ r ∈ exEntry.parts.map lastSeg ++ assetPathsOf src,
      ∃ q ∈ filesOf (cleanupTree (valid1 ++ assetPathsOf src) []
        ((src.filter (fun e => !excludedFile e.1)).foldl
          (fun a e => insertFile a e.1) t1)), joinPath q = r) := by
  rw [hv]
  have hfiles := filesOf_cleanupTree (valid1 ++ assetPathsOf src) []
    ((src.filter (fun e => !excludedFile e.1)).foldl
      (fun a e => insertFile a e.1) t1)
  constructor
  · intro q hq
    rw [hfiles, List.mem_filter] at hq
    have hval : joinPath q ∈ valid1 ++ assetPathsOf src := by
      have h2 := hq.2
      simp only [List.nil_append] at h2
      exact of_decide_eq_true h2
    rw [List.count_append]
    rcases List.mem_append.mp hval with h1 | h1
    · rw [List.count_eq_one_of_mem hnd1 h1,
        List.count_eq_zero_of_not_mem (hdj _ h1)]
    · by_cases h2 : joinPath q ∈ valid1
      · rw [List.count_eq_one_of_mem hnd1 h2,
          List.count_eq_zero_of_not_mem (hdj _ h2)]
      · rw [List.count_eq_zero_of_not_mem h2,
          List.count_eq_one_of_mem hnd2 h1]
  · intro r hr
    rcases List.mem_append.mp hr with h1 | h1
    · refine ⟨[r], ?_, rfl⟩
      rw [hfiles, List.mem_filter]
      refine ⟨mem_filesOf_foldl_insert _ _ _ (hdisk r h1), ?_⟩
      simp only [List.nil_append]
      exact decide_eq_true (List.mem_append.mpr (Or.inl h1))
    · have h1' := h1
      rw [assetPathsOf] at h1'
      obtain ⟨e, he, her⟩ := List.mem_map.mp h1'
      refine ⟨e.1, ?_, her⟩
      rw [hfiles, List.mem_filter]
      constructor
      · have hin := he
        rw [List.mem_filter] at hin
        exact self_mem_filesOf_foldl_insert _ _ e he (hne e hin.1)
      · simp only [List.nil_append]
        apply decide_eq_true
        apply List.mem_append.mpr
        right
        rw [her]
        exact h1

theorem republishExe_tree (prim : Prim) (t : DirTree) (cur : String)
    (bs : Bytes) :
    (republishExe prim t cur bs).2.1 =
      removeRootFile
        ((splitNames CHUNK_SIZE "update.zip" (prim.zipExe bs)).foldl
          (fun a n => insertFile a [n]) (insertFile t ["update.zip"]))
        "update.zip" := rfl

/-- C3 (amended): after every successful run in which (a) in the
verbatim-reuse branch every reused part filename already exists in
the pre-run target tree and the reused part filenames are mutually
distinct, (b) no part filename collides with an asset path, (c) the
asset paths are mutually distinct, and (d) source paths are
non-empty, the files on disk under the target root and the filenames
referenced by the written manifest correspond exactly: every disk
file is referenced by exactly one manifest entry, and every
referenced filename (last URL segment of a part, or asset path)
exists on disk.  This holds in both the Republished and the Unchanged
executable branch (the Republished branch needs no on-disk
assumption: it writes its parts). -/
theorem claim_C3 (prim : Prim) (now : Nat) (inp : Input) (src : SrcFiles)
    (hsrc : afterCompile prim inp = some src)
    (hne : ∀ e ∈ src, ¬ e.1 = [])
    (hnodup : (assetPathsOf src).Nodup)
    (hdisj : ∀ n ∈ (exeStage prim inp.oldManifest inp.target src).2.2,
      ¬ n ∈ assetPathsOf src)
    (hreuse : ∀ om, inp.oldManifest = some om →
      ∀ bs, lookupFile src [EXE_NAME] = some bs →
      prim.digest bs = om.executable.hash →
      (∀ u ∈ om.executable.parts, [lastSeg u] ∈ filesOf inp.target) ∧
        (om.executable.parts.map lastSeg).Nodup) :
    ∃ nm, (main prim now inp).newManifest = some nm ∧
      (∀ q ∈ filesOf (main prim now inp).target,
        (refsOf nm).count (joinPath q) = 1) ∧
      (∀ r ∈ refsOf nm, ∃ q ∈ filesOf (main prim now inp).target,
        joinPath q = r) := by
  have hkey :
      (exeStage prim inp.oldManifest inp.target src).1.parts.map lastSeg =
        (exeStage prim inp.oldManifest inp.target src).2.2 ∧
      (∀ n ∈ (exeStage prim inp.oldManifest inp.target src).2.2,
        [n] ∈ filesOf (exeStage prim inp.oldManifest inp.target src).2.1) ∧
      ((exeStage prim inp.oldManifest inp.target src).2.2).Nodup := by
    cases hbs : lookupFile src [EXE_NAME] with
    | none =>
      rw [exeStage_absent prim inp.oldManifest inp.target src hbs]
      exact ⟨rfl, by simp, List.nodup_nil⟩
    | some bs =>
      have hc : 0 < CHUNK_SIZE := by decide
      have hrep : ∀ (t : DirTree) (cur : String),
          (republishExe prim t cur bs).1.parts.map lastSeg =
            (republishExe prim t cur bs).2.2 ∧
          (∀ n ∈ (republishExe prim t cur bs).2.2,
            [n] ∈ filesOf (republishExe prim t cur bs).2.1) ∧
          ((republishExe prim t cur bs).2.2).Nodup := by
        intro t cur
        have hnames := splitNames_partName CHUNK_SIZE "update.zip" hc
          (prim.zipExe bs)
        refine ⟨?_, ?_, ?_⟩
        · rw [(republishExe_parts prim t cur bs).1,
            (republishExe_parts prim t cur bs).2]
          show (List.map (fun n => BASE_URL ++ n) _).map lastSeg = _
          rw [List.map_map]
          have hcg := List.map_congr_left (l :=
            splitNames CHUNK_SIZE "update.zip" (prim.zipExe bs))
            (f := lastSeg ∘ (fun n => BASE_URL ++ n)) (g := fun n => n)
            (fun n hn => by
              show lastSeg (BASE_URL ++ n) = n
              obtain ⟨k, hk⟩ := hnames n hn
              subst hk
              exact lastSeg_base_url _ (partName_ne_slash "update.zip"
                (by decide) k))
          rw [hcg, List.map_id']
        · rw [(republishExe_parts prim t cur bs).2, republishExe_tree]
          intro n hn
          apply (mem_filesOf_removeRootFile _ _ _).mpr
          constructor
          · exact mem_filesOf_foldl_insert_single _ _ n hn
          · intro hcon
            obtain ⟨k, hk⟩ := hnames n hn
            have : n = "update.zip" := by
              injection hcon
            rw [hk] at this
            exact partName_ne_self "update.zip" k this
        · rw [(republishExe_parts prim t cur bs).2]
          exact splitNames_nodup CHUNK_SIZE "update.zip" hc (prim.zipExe bs)
      cases hom : inp.oldManifest with
      | none =>
        rw [exeStage_fresh_none prim inp.target src bs hbs]
        exact hrep inp.target _
      | some om =>
        by_cases he : prim.digest bs = om.executable.hash
        · rw [exeStage_reuse prim inp.target src bs om hbs he]
          have hr := hreuse om hom bs hbs he
          refine ⟨rfl, ?_, hr.2⟩
          intro n hn
          obtain ⟨u, hu, hun⟩ := List.mem_map.mp hn
          rw [← hun]
          exact hr.1 u hu
        · rw [exeStage_fresh_some prim inp.target src bs om hbs he]
          exact hrep inp.target _
  have hcore := c3_core (exeStage prim inp.oldManifest inp.target src).1
    (exeStage prim inp.oldManifest inp.target src).2.1
    (exeStage prim inp.oldManifest inp.target src).2.2 src
    hkey.1 hkey.2.1 hkey.2.2 hnodup hdisj hne
  rw [main_some prim now inp src hsrc, runSuccess_eq]
  have hrefs : refsOf ⟨versionOf prim src, now,
      (exeStage prim inp.oldManifest inp.target src).1,
      assetEntriesOf prim.digest src⟩ =
      (exeStage prim inp.oldManifest inp.target src).1.parts.map lastSeg ++
        assetPathsOf src := by
    rw [refsOf]
    rw [assetEntriesOf_paths]
  refine ⟨_, rfl, ?_, ?_⟩
  · intro q hq
    rw [hrefs]
    exact hcore.1 q hq
  · intro r hr
    rw [hrefs] at hr
    exact hcore.2 r hr

/-- A run state whose previous manifest records a part file that does
not exist in the (empty) pre-run target tree, with an unchanged
executable. -/
def c3Input : Input where
  srcFiles := some [([EXE_NAME], [1])]
  rulesMeta := none
  ruleTexts := fun _ => none
  oldManifest := some ⟨"V1", 0,
    ⟨true, "hB", ["https://snib.racpast.com/files/update.zip.part000"]⟩, []⟩
  target := .mk [] .dnil

/-- C3, counterexample: in the Unchanged branch the reused part URLs
are trusted without an existence check, so when the previously
published part file is missing from the target tree the run still
succeeds and the written manifest references a file that is not on
disk. -/
theorem claim_C3_counterexample :
    ∃ nm, (main demoPrim 7 c3Input).newManifest = some nm ∧
      ¬ (∀ r ∈ refsOf nm, ∃ q ∈ filesOf (main demoPrim 7 c3Input).target,
          joinPath q = r) := by
  have hrun : main demoPrim 7 c3Input =
      ⟨0, some ⟨"V1.0.0", 7,
          ⟨true, "hB", ["https://snib.racpast.com/files/update.zip.part000"]⟩,
          []⟩,
        some ⟨"V1.0.0", 7,
          ⟨true, "hB", ["https://snib.racpast.com/files/update.zip.part000"]⟩,
          []⟩,
        .mk [] .dnil, some [([EXE_NAME], [1])]⟩ := by
    simp [main, afterCompile, c3Input, runSuccess, versionOf, lookupFile,
      EXE_NAME, VERSION_FILE, demoPrim, exeStage, lastSeg,
      assetStage, assetStep, excludedFile, lastName, joinPath,
      cleanupTree, cleanupList, dirEmpty, filesOf, filesOfList]
  rw [hrun]
  refine ⟨_, rfl, ?_⟩
  intro hcon
  obtain ⟨q, hq, _⟩ := hcon "update.zip.part000" (by decide)
  rw [show filesOf (.mk [] .dnil) = [] from rfl] at hq
  simp at hq

/-- A fresh publish of an executable plus one asset, for the C3
witness (Republished branch, no reuse hypotheses needed). -/
def c3wInput : Input where
  srcFiles := some [([EXE_NAME], [1]), (["a.txt"], [2])]
  rulesMeta := none
  ruleTexts := fun _ => none
  oldManifest := none
  target := .mk [] .dnil

/-- C3, witness. -/
theorem claim_C3_witness :
    ∃ nm, (main demoPrim 3 c3wInput).newManifest = some nm ∧
      (∀ q ∈ filesOf (main demoPrim 3 c3wInput).target,
        (refsOf nm).count (joinPath q) = 1) ∧
      (∀ r ∈ refsOf nm, ∃ q ∈ filesOf (main demoPrim 3 c3wInput).target,
        joinPath q = r) := by
  apply claim_C3 demoPrim 3 c3wInput [([EXE_NAME], [1]), (["a.txt"], [2])] rfl
  · decide
  · decide
  · intro n hn
    have hex : (exeStage demoPrim c3wInput.oldManifest c3wInput.target
        [([EXE_NAME], [1]), (["a.txt"], [2])]).2.2 = ["update.zip.part000"] := by
      simp [exeStage, c3wInput, lookupFile, EXE_NAME, demoPrim, republishExe,
        split_file, splitLoop, partName, pad3, decDigits, CHUNK_SIZE]
    rw [hex] at hn
    simp at hn
    rw [hn]
    decide
  · intro om hom
    exact absurd hom (by simp [c3wInput])

end SNIBuild
